import Mathlib

/-!
Shallow embedding of the `Matrix` class of `src/matOps.hpp` (matOps v0.6.1).

Machine doubles are modelled as exact rationals (`ℚ`); `size_t` values are
modelled as `Nat`, with the one wrapping subtraction in `extractMatrix`
modelled explicitly modulo `2 ^ 64`.  C++ exceptions are modelled by an
`Except` result whose error carries the concrete exception class and message
thrown by the source.  In-place loops over `[0, nrows) × [0, ncols)` cells are
rendered as grid builders over the same index ranges; iteration order of the
accumulating loops is immaterial in exact arithmetic.
-/

deriving instance DecidableEq for Except

namespace MatOps

/-- `#define EPS 1e-12` from matOps.hpp, as an exact rational. -/
def EPS : ℚ := 1 / 1000000000000

/-- `std::abs`, written executably so that the kernel can evaluate it. -/
def qAbs (x : ℚ) : ℚ := if x < 0 then -x else x

/-- The C++ exception classes thrown by matOps.hpp, with their messages. -/
inductive CppError where
  | invalidArgument (msg : String)
  | outOfRange (msg : String)
  | runtimeError (msg : String)
deriving DecidableEq

/-- The `Matrix` class fields: `container`, `nrows`, `ncols`. -/
structure Matrix where
  container : List (List ℚ)
  nrows : Nat
  ncols : Nat
deriving DecidableEq

/-- Reading `container[r][c]` (out-of-range reads default to `0`; they are
only ever used under bounds that make them in range). -/
def Matrix.el (m : Matrix) (r c : Nat) : ℚ := (m.container.getD r []).getD c 0

/-- The matrix data as a total function, used by the elimination routines. -/
def Matrix.toFn (m : Matrix) : Nat → Nat → ℚ := fun r c => m.el r c

/-- Builds the grid written by a doubly indexed loop over
`[0, rows) × [0, cols)` cells. -/
def gridOfFn (rows cols : Nat) (f : Nat → Nat → ℚ) : List (List ℚ) :=
  (List.range rows).map fun r => (List.range cols).map fun c => f r c

/-- Well-formedness of a `Matrix` value: the `nrows`/`ncols` fields describe
the container, both dimensions are positive, and the grid is rectangular.
This is the invariant stated in the spec's data model. -/
def Matrix.WF (m : Matrix) : Prop :=
  m.container.length = m.nrows ∧ 0 < m.nrows ∧ 0 < m.ncols ∧
    ∀ row ∈ m.container, row.length = m.ncols

instance (m : Matrix) : Decidable m.WF := by
  unfold Matrix.WF; infer_instance

/-- The private `Matrix(container&&, InternalTag)` constructor: sets
`nrows = container.size()`, `ncols = container[0].size()` (0 when empty) and
throws `std::invalid_argument` when either is zero; no other validation. -/
def Matrix.internalMk (c : List (List ℚ)) : Except CppError Matrix :=
  let nrows := c.length
  let ncols := (c.getD 0 []).length
  if nrows = 0 ∨ ncols = 0 then
    .error (.invalidArgument "Matrix is empty. Expected a non-empty container.")
  else
    .ok ⟨c, nrows, ncols⟩

/-- The public validating constructor `Matrix(const vector<vector<double>>&)`:
rejects an empty container and ragged rows.  It does not reject rows of
length zero. -/
def Matrix.ofContainer (c : List (List ℚ)) : Except CppError Matrix :=
  if c.length = 0 then
    .error (.invalidArgument
      "Matrix is empty. Expected `const std::vector<std::vector<double>>& container`")
  else
    let ncols := (c.getD 0 []).length
    if c.all fun row => row.length = ncols then
      .ok ⟨c, c.length, ncols⟩
    else
      .error (.invalidArgument "Inconsistent row sizes in matrix")

/-- `Matrix::identity(dim)`: a `dim × dim` grid with `1.0` on the diagonal,
handed to the internal constructor (which throws for `dim = 0`). -/
def Matrix.identity (n : Nat) : Except CppError Matrix :=
  Matrix.internalMk (gridOfFn n n fun r c => if r = c then 1 else 0)

/-- `Matrix::constValMatrix(rows, cols, val)`. -/
def Matrix.constValMatrix (rows cols : Nat) (v : ℚ) : Except CppError Matrix :=
  if rows = 0 ∨ cols = 0 then
    .error (.invalidArgument "Matrix cannot have zero dimensions")
  else
    Matrix.internalMk (List.replicate rows (List.replicate cols v))

/-- `operator==`: `false` on a shape mismatch, otherwise `true` exactly when
no corresponding pair of entries differs by more than `EPS`. -/
def Matrix.matEq (m o : Matrix) : Bool :=
  if m.nrows ≠ o.nrows ∨ m.ncols ≠ o.ncols then false
  else
    (List.range m.nrows).all fun i =>
      (List.range m.ncols).all fun j => decide (qAbs (m.el i j - o.el i j) ≤ EPS)

/-- `operator!=`: the negation of `operator==`. -/
def Matrix.matNe (m o : Matrix) : Bool := !(m.matEq o)

/-- The `std::invalid_argument` message built by `operator+`/`operator-`. -/
def dimMismatchMsg (m o : Matrix) : String :=
  "Matrix dimensions do not match: (" ++ toString m.nrows ++ "x" ++
    toString m.ncols ++ ") vs (" ++ toString o.nrows ++ "x" ++
    toString o.ncols ++ ")"

/-- `operator+(const Matrix&)`: dimension check, then cell-wise addition over
`[0, nrows) × [0, ncols)` on a copy of the left operand. -/
def Matrix.add (m o : Matrix) : Except CppError Matrix :=
  if m.nrows ≠ o.nrows ∨ m.ncols ≠ o.ncols then
    .error (.invalidArgument (dimMismatchMsg m o))
  else
    .ok ⟨gridOfFn m.nrows m.ncols (fun i j => m.el i j + o.el i j), m.nrows, m.ncols⟩

/-- `operator+(double)`: adds the scalar to every cell. -/
def Matrix.addScalar (m : Matrix) (s : ℚ) : Matrix :=
  ⟨gridOfFn m.nrows m.ncols (fun i j => m.el i j + s), m.nrows, m.ncols⟩

/-- `operator-(const Matrix&)`. -/
def Matrix.sub (m o : Matrix) : Except CppError Matrix :=
  if m.nrows ≠ o.nrows ∨ m.ncols ≠ o.ncols then
    .error (.invalidArgument (dimMismatchMsg m o))
  else
    .ok ⟨gridOfFn m.nrows m.ncols (fun i j => m.el i j - o.el i j), m.nrows, m.ncols⟩

/-- `operator-(double)` (matrix minus scalar). -/
def Matrix.subScalar (m : Matrix) (s : ℚ) : Matrix :=
  ⟨gridOfFn m.nrows m.ncols (fun i j => m.el i j - s), m.nrows, m.ncols⟩

/-- `operator-(double, const Matrix&)` (scalar minus matrix). -/
def Matrix.scalarSub (s : ℚ) (m : Matrix) : Matrix :=
  ⟨gridOfFn m.nrows m.ncols (fun i j => s - m.el i j), m.nrows, m.ncols⟩

/-- The `std::invalid_argument` message built by `operator*(const Matrix&)`. -/
def mulMismatchMsg (m o : Matrix) : String :=
  "Incorrect dimensions: For matrices (m x n) and (p x r), n must be equal to p. " ++
    "Given: (" ++ toString m.nrows ++ "x" ++ toString m.ncols ++ ") and (" ++
    toString o.nrows ++ "x" ++ toString o.ncols ++ ")."

/-- `operator*(const Matrix&)`: inner-dimension check, then the `i, k, j`
accumulation loop `res[i][j] += A[i][k] * B[k][j]`, whose cell `(i, j)` totals
`∑ k < ncols, A[i][k] * B[k][j]` in exact arithmetic; the result grid goes
through the internal constructor. -/
def Matrix.mul (m o : Matrix) : Except CppError Matrix :=
  if m.ncols ≠ o.nrows then
    .error (.invalidArgument (mulMismatchMsg m o))
  else
    Matrix.internalMk (gridOfFn m.nrows o.ncols fun i j =>
      ∑ k ∈ Finset.range m.ncols, m.el i k * o.el k j)

/-- `operator*(double)`: multiplies every cell by the scalar. -/
def Matrix.mulScalar (m : Matrix) (s : ℚ) : Matrix :=
  ⟨gridOfFn m.nrows m.ncols (fun i j => m.el i j * s), m.nrows, m.ncols⟩

/-- `operator/(double)`: throws `std::runtime_error` on a zero scalar,
otherwise multiplies by the reciprocal. -/
def Matrix.divScalar (m : Matrix) (s : ℚ) : Except CppError Matrix :=
  if s = 0 then .error (.runtimeError "Division by Zero")
  else .ok (m.mulScalar (1 / s))

/-- One row of the `operator^` loop: scans the row in order, throwing on a
zero base with a non-positive exponent, otherwise applying `pow`.  The `pow`
primitive of `<cmath>` is passed in as `powFn`. -/
def powRow (powFn : ℚ → ℚ → ℚ) (s : ℚ) : List ℚ → Except CppError (List ℚ)
  | [] => .ok []
  | x :: xs =>
    if x = 0 ∧ s ≤ 0 then
      .error (.runtimeError "Division by zero occured. (0 ^ ( <=0 ))")
    else
      match powRow powFn s xs with
      | .error e => .error e
      | .ok rest => .ok (powFn x s :: rest)

/-- The row-by-row traversal of the `operator^` loop. -/
def powGrid (powFn : ℚ → ℚ → ℚ) (s : ℚ) :
    List (List ℚ) → Except CppError (List (List ℚ))
  | [] => .ok []
  | r :: rs =>
    match powRow powFn s r with
    | .error e => .error e
    | .ok r2 =>
      match powGrid powFn s rs with
      | .error e => .error e
      | .ok rs2 => .ok (r2 :: rs2)

/-- `operator^(double)`: returns the receiver unchanged when the exponent is
`1`; otherwise rebuilds every row through the element loop. -/
def Matrix.hpowM (m : Matrix) (powFn : ℚ → ℚ → ℚ) (s : ℚ) : Except CppError Matrix :=
  if s = 1 then .ok m
  else
    match powGrid powFn s m.container with
    | .error e => .error e
    | .ok c => .ok ⟨c, m.nrows, m.ncols⟩

/-- The read path of `operator()(row, col)`: bounds check, then the cell. -/
def Matrix.getAt (m : Matrix) (r c : Nat) : Except CppError ℚ :=
  if m.nrows ≤ r ∨ m.ncols ≤ c then .error (.outOfRange "Index out of bounds")
  else .ok (m.el r c)

/-- The write path of `operator()(row, col)`: bounds check, then the matrix
with the cell replaced. -/
def Matrix.setAt (m : Matrix) (r c : Nat) (v : ℚ) : Except CppError Matrix :=
  if m.nrows ≤ r ∨ m.ncols ≤ c then .error (.outOfRange "Index out of bounds")
  else .ok ⟨m.container.set r ((m.container.getD r []).set c v), m.nrows, m.ncols⟩

/-- `transpose()`: builds the `ncols × nrows` grid with `res[j][i] = A[i][j]`
and hands it to the internal constructor. -/
def Matrix.transposeM (m : Matrix) : Except CppError Matrix :=
  Matrix.internalMk (gridOfFn m.ncols m.nrows fun i j => m.el j i)

/-- `insertRow(vector, idx)`. -/
def Matrix.insertRow (m : Matrix) (row : List ℚ) (idx : Nat) : Except CppError Matrix :=
  if m.ncols ≠ row.length then
    .error (.invalidArgument "Ill formed row. Should be of same size as the rest of the matrix")
  else if m.nrows < idx then
    .error (.invalidArgument "Row index out of range")
  else
    .ok ⟨m.container.insertIdx idx row, m.nrows + 1, m.ncols⟩

/-- `insertRow(double, idx)` (constant-fill variant). -/
def Matrix.insertRowFill (m : Matrix) (v : ℚ) (idx : Nat) : Except CppError Matrix :=
  if m.nrows < idx then
    .error (.invalidArgument "Row index out of range")
  else
    .ok ⟨m.container.insertIdx idx (List.replicate m.ncols v), m.nrows + 1, m.ncols⟩

/-- `insertCol(vector, idx)`: checks length against `nrows` and the index
against `ncols`, then splices one supplied value into each row. -/
def Matrix.insertCol (m : Matrix) (col : List ℚ) (idx : Nat) : Except CppError Matrix :=
  if m.nrows ≠ col.length then
    .error (.invalidArgument "Ill formed column. Should be of same size as the rest of the matrix")
  else if m.ncols < idx then
    .error (.invalidArgument "Column index out of range")
  else
    .ok ⟨List.zipWith (fun r v => r.insertIdx idx v) m.container col, m.nrows, m.ncols + 1⟩

/-- `insertCol(double, idx)` (constant-fill variant). -/
def Matrix.insertColFill (m : Matrix) (v : ℚ) (idx : Nat) : Except CppError Matrix :=
  if m.ncols < idx then
    .error (.invalidArgument "Column index out of range")
  else
    .ok ⟨m.container.map (fun r => r.insertIdx idx v), m.nrows, m.ncols + 1⟩

/-- `hStack(other)`: row-count check, then row-wise append. -/
def Matrix.hStack (m o : Matrix) : Except CppError Matrix :=
  if m.nrows ≠ o.nrows then
    .error (.invalidArgument "Horizontal stack requires alignment of no. of rows")
  else
    .ok ⟨List.zipWith (· ++ ·) m.container o.container, m.nrows, m.ncols + o.ncols⟩

/-- `vStack(other)`: column-count check, then container concatenation. -/
def Matrix.vStack (m o : Matrix) : Except CppError Matrix :=
  if m.ncols ≠ o.ncols then
    .error (.invalidArgument "Vertical stack requires alignment of no. of cols")
  else
    .ok ⟨m.container ++ o.container, m.nrows + o.nrows, m.ncols⟩

/-- Exchanges positions `i` and `j` of a list (a `std::swap` of two rows);
out-of-range indices leave the list unchanged. -/
def listSwap {α : Type} (l : List α) (i j : Nat) : List α :=
  match l.get? i, l.get? j with
  | some a, some b => (l.set i b).set j a
  | _, _ => l

/-- The Fisher–Yates loop run by `std::shuffle`: for `i` from `len - 1` down
to `1`, exchange position `i` with a generator-chosen position `≤ i`.  The
draws of the `std::mt19937` engine seeded with `random_state`, reduced by the
library's distribution to the range `[0, i]`, are abstracted by `g` (the
reduction to range is kept explicit as `% (i + 1)`). -/
def fisherYates {α : Type} (g : Nat → Nat) : Nat → List α → List α
  | 0, l => l
  | i + 1, l => fisherYates g i (listSwap l (i + 1) (g (i + 1) % (i + 2)))

/-- `shuffleRows(size_t random_state)`: a deterministic function of the
matrix and the seed's generator; permutes `container` in place. -/
def Matrix.shuffleRows (m : Matrix) (g : Nat → Nat) : Matrix :=
  ⟨fisherYates g (m.container.length - 1) m.container, m.nrows, m.ncols⟩

/-- The wrapping `size_t` decrement `x - 1` used by `extractMatrix` to turn an
exclusive end into an inclusive one (`0 - 1` wraps to `2 ^ 64 - 1`). -/
def sub1w (x : Nat) : Nat := (x + (2 ^ 64 - 1)) % 2 ^ 64

/-- `extractMatrix(rowSlice, colSlice)`: converts the half-open slices to
inclusive ends with a wrapping decrement, validates them, and copies the
selected block. -/
def Matrix.extractMatrix (m : Matrix) (rowSlice colSlice : Nat × Nat) :
    Except CppError Matrix :=
  let rowStart := rowSlice.1
  let rowEnd := sub1w rowSlice.2
  let colStart := colSlice.1
  let colEnd := sub1w colSlice.2
  if m.nrows ≤ rowStart ∨ m.nrows ≤ rowEnd ∨ rowEnd < rowStart ∨
      m.ncols ≤ colStart ∨ m.ncols ≤ colEnd ∨ colEnd < colStart then
    .error (.outOfRange "Slice indices are out of bounds or invalid.")
  else
    Matrix.internalMk (gridOfFn (rowEnd - rowStart + 1) (colEnd - colStart + 1)
      fun i j => m.el (rowStart + i) (colStart + j))

/-- `extractRow(rowIdx)`. -/
def Matrix.extractRow (m : Matrix) (rowIdx : Nat) : Except CppError Matrix :=
  if m.nrows ≤ rowIdx then
    .error (.invalidArgument "Row index out of range.")
  else
    Matrix.internalMk [m.container.getD rowIdx []]

/-- `extractCol(colIdx)`: delegates to `extractMatrix`. -/
def Matrix.extractCol (m : Matrix) (colIdx : Nat) : Except CppError Matrix :=
  if m.ncols ≤ colIdx then
    .error (.invalidArgument "Column index out of range.")
  else
    m.extractMatrix (0, m.nrows) (colIdx, colIdx + 1)

/-! ### Determinant: LU elimination with partial pivoting -/

/-- The pivot scan of `determinant()`: starting from `best = (i, |LU[i][i]|)`,
examine `|LU[k][col]|` for `fuel` further rows `k, k+1, …`, replacing `best`
on a strictly larger magnitude. -/
def detPivotAux (LU : Nat → Nat → ℚ) (col : Nat) :
    Nat → Nat → Nat × ℚ → Nat × ℚ
  | _, 0, best => best
  | k, fuel + 1, best =>
      detPivotAux LU col (k + 1) fuel (if best.2 < qAbs (LU k col) then (k, qAbs (LU k col)) else best)

/-- The full pivot scan for column `i` over rows `i … n - 1`. -/
def detFindPivot (LU : Nat → Nat → ℚ) (n i : Nat) : Nat × ℚ :=
  detPivotAux LU i (i + 1) (n - (i + 1)) (i, qAbs (LU i i))

/-- `std::swap(LU[i], LU[j])` on the functional representation. -/
def swapRows (A : Nat → Nat → ℚ) (i j : Nat) : Nat → Nat → ℚ :=
  fun r c => if r = i then A j c else if r = j then A i c else A r c

/-- The elimination step below pivot `i` of `determinant()`: each row
`j ∈ (i, n)` stores the multiplier `LU[j][i] / LU[i][i]` in column `i` and
subtracts `multiplier * LU[i][k]` from its columns `k ∈ (i, n)`.  Rows are
mutually independent, so the row loop is a simultaneous update. -/
def detElim (LU : Nat → Nat → ℚ) (n i : Nat) : Nat → Nat → ℚ :=
  fun r c =>
    if i < r ∧ r < n then
      if c = i then LU r i / LU i i
      else if i < c ∧ c < n then LU r c - LU r i / LU i i * LU i c
      else LU r c
    else LU r c

/-- The signed diagonal product computed after the elimination loop. -/
def detFinish (n : Nat) (LU : Nat → Nat → ℚ) (swaps : Nat) : ℚ :=
  (if swaps % 2 = 0 then (1 : ℚ) else -1) * ∏ j ∈ Finset.range n, LU j j

/-- The pivoting loop of `determinant()`, structurally recursive on the
remaining iteration count (`fuel = n - i` at every call): find the pivot of
column `i`, short-circuit to `0.0` when its magnitude is below `EPS`,
otherwise swap it into place (counting swaps) and eliminate below it. -/
def detLoop (n : Nat) : Nat → (Nat → Nat → ℚ) → Nat → Nat → ℚ
  | 0, LU, swaps, _ => detFinish n LU swaps
  | fuel + 1, LU, swaps, i =>
      if i < n then
        let p := detFindPivot LU n i
        if qAbs p.2 < EPS then 0
        else
          let LU1 := if p.1 ≠ i then swapRows LU i p.1 else LU
          let swaps1 := if p.1 ≠ i then swaps + 1 else swaps
          detLoop n fuel (detElim LU1 n i) swaps1 (i + 1)
      else detFinish n LU swaps

/-- The `std::invalid_argument` message of `determinant()`. -/
def detNotSquareMsg (m : Matrix) : String :=
  "Determinant is only defined for square matrices. Given: " ++
    toString m.nrows ++ "x" ++ toString m.ncols

/-- `determinant()`: square check, then elimination with partial pivoting on
a working copy (`n = container.size()`). -/
def Matrix.determinant (m : Matrix) : Except CppError ℚ :=
  if m.nrows ≠ m.ncols then
    .error (.invalidArgument (detNotSquareMsg m))
  else
    .ok (detLoop m.container.length m.container.length m.toFn 0 0)

/-! ### Inverse: Gauss–Jordan elimination -/

/-- The pivot scan of `inverse()`: keep the index of the entry of strictly
largest magnitude in column `col`, scanning `fuel` rows from `j`. -/
def invPivotAux (A : Nat → Nat → ℚ) (col : Nat) : Nat → Nat → Nat → Nat
  | _, 0, pivot => pivot
  | j, fuel + 1, pivot =>
      invPivotAux A col (j + 1) fuel (if qAbs (A pivot col) < qAbs (A j col) then j else pivot)

/-- The full pivot scan for column `i` over rows `i … n - 1`. -/
def invFindPivot (A : Nat → Nat → ℚ) (n i : Nat) : Nat :=
  invPivotAux A i (i + 1) (n - (i + 1)) i

/-- The normalization step of `inverse()`: divide row `i` (columns `< n`)
by the pivot value `p`. -/
def gjNormalize (A : Nat → Nat → ℚ) (n i : Nat) (p : ℚ) : Nat → Nat → ℚ :=
  fun r c => if r = i ∧ c < n then A r c / p else A r c

/-- The elimination step of `inverse()` applied to matrix `M`: every row
`k ≠ i` (with `k < n`) subtracts `factor * M[i][j]` from its columns `j < n`,
where `factor = A[k][i]` is read from the working matrix `A` before row `k`
is modified. -/
def gjEliminate (A M : Nat → Nat → ℚ) (n i : Nat) : Nat → Nat → ℚ :=
  fun r c => if ¬r = i ∧ r < n ∧ c < n then M r c - A r i * M i c else M r c

/-- The Gauss–Jordan loop of `inverse()` over the working matrix `A` and the
identity-turned-inverse accumulator `B`, structurally recursive on the
remaining iteration count (`fuel = n - i` at every call).  Pivot selection
throws `std::runtime_error("Singular matrix")` below tolerance; the swap of
rows `i` and `pivot` is unconditional in the source. -/
def gjLoop (n : Nat) : Nat → (Nat → Nat → ℚ) → (Nat → Nat → ℚ) → Nat →
    Except CppError ((Nat → Nat → ℚ) × (Nat → Nat → ℚ))
  | 0, A, B, _ => .ok (A, B)
  | fuel + 1, A, B, i =>
      if i < n then
        let pivot := invFindPivot A n i
        if qAbs (A pivot i) < EPS then .error (.runtimeError "Singular matrix")
        else
          let A1 := swapRows A i pivot
          let B1 := swapRows B i pivot
          let p := A1 i i
          let A2 := gjNormalize A1 n i p
          let B2 := gjNormalize B1 n i p
          gjLoop n fuel (gjEliminate A2 A2 n i) (gjEliminate A2 B2 n i) (i + 1)
      else .ok (A, B)

/-- The functional content of the `Matrix::identity(n)` accumulator. -/
def identityFn (n : Nat) : Nat → Nat → ℚ :=
  fun r c => if r < n ∧ c < n ∧ r = c then 1 else 0

/-- The `std::invalid_argument` message of `inverse()`. -/
def invNotSquareMsg (m : Matrix) : String :=
  "Matrix must be square to invert. Given: " ++
    toString m.nrows ++ "x" ++ toString m.ncols ++ "."

/-- `inverse()`: square check, then Gauss–Jordan elimination of a working
copy against an identity accumulator; the accumulator is returned as an
`n × n` matrix. -/
def Matrix.inverse (m : Matrix) : Except CppError Matrix :=
  if m.nrows ≠ m.ncols then
    .error (.invalidArgument (invNotSquareMsg m))
  else
    match gjLoop m.nrows m.nrows m.toFn (identityFn m.nrows) 0 with
    | .error e => .error e
    | .ok (_, B) => .ok ⟨gridOfFn m.nrows m.nrows B, m.nrows, m.nrows⟩

/-- Some row of the active block `[i, n) × [i, n)` is entirely zero. -/
def activeZero (LU : Nat → Nat → ℚ) (n i : Nat) : Prop :=
  ∃ r, i ≤ r ∧ r < n ∧ ∀ c, i ≤ c → c < n → LU r c = 0

/-- Two distinct rows of the active block `[i, n) × [i, n)` agree. -/
def identicalRows (LU : Nat → Nat → ℚ) (n i : Nat) : Prop :=
  ∃ p q, p ≠ q ∧ i ≤ p ∧ p < n ∧ i ≤ q ∧ q < n ∧
    ∀ c, i ≤ c → c < n → LU p c = LU q c

/-! ### Basic lemmas about the representation -/

theorem qAbs_eq_abs (x : ℚ) : qAbs x = |x| := by
  unfold qAbs
  rcases lt_or_le x 0 with h | h
  · rw [if_pos h, abs_of_neg h]
  · rw [if_neg (not_lt.mpr h), abs_of_nonneg h]

theorem EPS_pos : 0 < EPS := by norm_num [EPS]

theorem gridOfFn_length (rows cols : Nat) (f : Nat → Nat → ℚ) :
    (gridOfFn rows cols f).length = rows := by
  simp [gridOfFn]

theorem gridOfFn_mem_length (rows cols : Nat) (f : Nat → Nat → ℚ) :
    ∀ row ∈ gridOfFn rows cols f, row.length = cols := by
  intro row hrow
  simp only [gridOfFn, List.mem_map] at hrow
  obtain ⟨r, -, rfl⟩ := hrow
  simp

theorem rangeMap_getD {β : Type} (n : Nat) (f : Nat → β) (r : Nat) (d : β) (h : r < n) :
    ((List.range n).map f).getD r d = f r := by
  simp [List.getD_eq_getElem?_getD, List.getElem?_map, List.getElem?_range, h]

theorem gridOfFn_el (rows cols : Nat) (f : Nat → Nat → ℚ) (r c : Nat)
    (hr : r < rows) (hc : c < cols) :
    ((gridOfFn rows cols f).getD r []).getD c 0 = f r c := by
  unfold gridOfFn
  rw [rangeMap_getD rows _ r [] hr, rangeMap_getD cols _ c 0 hc]

theorem el_mk_grid (rows cols : Nat) (f : Nat → Nat → ℚ) (r c : Nat)
    (hr : r < rows) (hc : c < cols) :
    (Matrix.mk (gridOfFn rows cols f) rows cols).el r c = f r c := by
  unfold Matrix.el
  exact gridOfFn_el rows cols f r c hr hc

/-- A grid built by `gridOfFn` passes the internal constructor exactly when
both dimensions are positive, and then yields a well-formed matrix. -/
theorem internalMk_gridOfFn (rows cols : Nat) (f : Nat → Nat → ℚ)
    (hr : 0 < rows) (hc : 0 < cols) :
    Matrix.internalMk (gridOfFn rows cols f) =
      .ok (Matrix.mk (gridOfFn rows cols f) rows cols) := by
  unfold Matrix.internalMk gridOfFn
  have h1 : ((List.range rows).map fun r => (List.range cols).map fun c => f r c).length
      = rows := by simp
  have h2 : (((List.range rows).map fun r =>
      (List.range cols).map fun c => f r c).getD 0 []).length = cols := by
    rw [rangeMap_getD rows _ 0 [] hr]; simp
  simp only [h1, h2]
  rw [if_neg (by omega)]

theorem wf_mk_grid (rows cols : Nat) (f : Nat → Nat → ℚ)
    (hr : 0 < rows) (hc : 0 < cols) :
    (Matrix.mk (gridOfFn rows cols f) rows cols).WF :=
  ⟨gridOfFn_length rows cols f, hr, hc, gridOfFn_mem_length rows cols f⟩

/-- Reading a well-formed matrix row by `getD` stays inside the container. -/
theorem wf_row_length (m : Matrix) (hm : m.WF) (r : Nat) (hr : r < m.nrows) :
    (m.container.getD r []).length = m.ncols := by
  obtain ⟨hlen, -, -, hrect⟩ := hm
  have hrlt : r < m.container.length := by omega
  rw [List.getD_eq_getElem?_getD, List.getElem?_eq_getElem hrlt]
  exact hrect _ (List.getElem_mem hrlt)

/-! ### Claim C7: tolerance-based equality -/

/-- C7: `equals(A, B)` holds if and only if `A` and `B` have identical
`(rows, cols)` and every corresponding element pair differs by no more than
the fixed tolerance `1e-12`, and `operator!=` returns the logical negation
of `operator==`. -/
theorem c7_equality_is_tolerance_comparison (m o : Matrix) :
    (m.matEq o = true ↔
      m.nrows = o.nrows ∧ m.ncols = o.ncols ∧
        ∀ i < m.nrows, ∀ j < m.ncols,
          |m.el i j - o.el i j| ≤ 1 / 1000000000000) ∧
    m.matNe o = !m.matEq o := by
  refine ⟨?_, rfl⟩
  unfold Matrix.matEq
  by_cases hdim : m.nrows ≠ o.nrows ∨ m.ncols ≠ o.ncols
  · rw [if_pos hdim]
    simp only [Bool.false_eq_true, false_iff]
    rintro ⟨h1, h2, -⟩
    rcases hdim with h | h <;> exact h (by assumption)
  · rw [if_neg hdim]
    push_neg at hdim
    simp only [List.all_eq_true, List.mem_range, decide_eq_true_eq, qAbs_eq_abs]
    constructor
    · intro h
      exact ⟨hdim.1, hdim.2, fun i hi j hj => by simpa [EPS] using h i hi j hj⟩
    · rintro ⟨-, -, h⟩ i hi j hj
      simpa [EPS] using h i hi j hj

/-! ### Claim C10: bounds-checked element access -/

/-- C10: the indexed accessor `operator()(row, col)` raises an
`std::out_of_range` error if and only if `row ≥ rows` or `col ≥ cols`; for
every in-bounds pair the read path returns the stored element and the write
path succeeds, so out-of-bounds access never touches storage. -/
theorem c10_accessor_bounds_check (m : Matrix) (r c : Nat) :
    (m.getAt r c = .error (.outOfRange "Index out of bounds") ↔
      m.nrows ≤ r ∨ m.ncols ≤ c) ∧
    (r < m.nrows → c < m.ncols → m.getAt r c = .ok (m.el r c)) ∧
    (∀ v, m.setAt r c v = .error (.outOfRange "Index out of bounds") ↔
      m.nrows ≤ r ∨ m.ncols ≤ c) := by
  unfold Matrix.getAt Matrix.setAt
  refine ⟨?_, ?_, ?_⟩
  · by_cases h : m.nrows ≤ r ∨ m.ncols ≤ c
    · rw [if_pos h]; simpa using h
    · rw [if_neg h]; simpa using h
  · intro h1 h2
    rw [if_neg (by omega)]
  · intro v
    by_cases h : m.nrows ≤ r ∨ m.ncols ≤ c
    · rw [if_pos h]; simpa using h
    · rw [if_neg h]; simpa using h

/-- C10 witness at a concrete matrix and indices. -/
theorem c10_accessor_bounds_check_witness :
    ((Matrix.mk [[1, 2], [3, 4]] 2 2).getAt 0 1 = .ok 2) ∧
    ((Matrix.mk [[1, 2], [3, 4]] 2 2).getAt 2 0 =
      .error (.outOfRange "Index out of bounds")) := by
  refine ⟨?_, ?_⟩
  · have h := (c10_accessor_bounds_check (Matrix.mk [[1, 2], [3, 4]] 2 2) 0 1).2.1
      (by decide) (by decide)
    rw [h]
    rfl
  · exact ((c10_accessor_bounds_check (Matrix.mk [[1, 2], [3, 4]] 2 2) 2 0).1).mpr
      (by decide)

/-! ### Claim C4: insertRow / insertCol error kinds -/

/-- C4: `insertRow` fails with the dimension-mismatch error when the supplied
row's length differs from `cols`, with the index error when `index > rows`
(symmetrically for `insertCol` with rows and columns swapped), the two
failures are distinguishable to the caller, and a valid insertion returns a
new matrix with one more row (resp. column). -/
theorem c4_insert_error_kinds (m : Matrix) (row col : List ℚ) (idx : Nat) :
    (m.insertRow row idx =
        .error (.invalidArgument
          "Ill formed row. Should be of same size as the rest of the matrix") ↔
      m.ncols ≠ row.length) ∧
    (m.insertRow row idx = .error (.invalidArgument "Row index out of range") ↔
      m.ncols = row.length ∧ m.nrows < idx) ∧
    (CppError.invalidArgument
        "Ill formed row. Should be of same size as the rest of the matrix" ≠
      CppError.invalidArgument "Row index out of range") ∧
    (m.ncols = row.length → idx ≤ m.nrows →
      ∃ r, m.insertRow row idx = .ok r ∧ r.nrows = m.nrows + 1 ∧ r.ncols = m.ncols) ∧
    (m.insertCol col idx =
        .error (.invalidArgument
          "Ill formed column. Should be of same size as the rest of the matrix") ↔
      m.nrows ≠ col.length) ∧
    (m.insertCol col idx = .error (.invalidArgument "Column index out of range") ↔
      m.nrows = col.length ∧ m.ncols < idx) := by
  have hne1 : ("Ill formed row. Should be of same size as the rest of the matrix" : String)
      ≠ "Row index out of range" := by decide
  have hne2 : ("Ill formed column. Should be of same size as the rest of the matrix" : String)
      ≠ "Column index out of range" := by decide
  unfold Matrix.insertRow Matrix.insertCol
  refine ⟨?_, ?_, by simp [hne1], ?_, ?_, ?_⟩
  · split_ifs with h1 h2 <;> simp_all
  · split_ifs with h1 h2 <;> simp_all
  · intro h1 h2
    rw [if_neg (by omega), if_neg (by omega)]
    exact ⟨_, rfl, rfl, rfl⟩
  · split_ifs with h1 h2 <;> simp_all
  · split_ifs with h1 h2 <;> simp_all

/-! ### Claim C3: extractMatrix slice validation -/

theorem sub1w_zero : sub1w 0 = 2 ^ 64 - 1 := by
  unfold sub1w; omega

theorem sub1w_pos (x : Nat) (h1 : 1 ≤ x) (h2 : x < 2 ^ 64) : sub1w x = x - 1 := by
  unfold sub1w; omega

/-- C3: `extractMatrix` fails with the `std::out_of_range` slice error if and
only if an exclusive end exceeds the corresponding dimension or
`start ≥ end` on either axis; otherwise it returns the
`(rowEnd - rowStart) × (colEnd - colStart)` block whose `(i, j)` entry is
`A[rowStart + i][colStart + j]`; in particular the spec's concrete slice of
the 3×3 example extracts `[[2, 3], [5, 6]]`. -/
theorem c3_extract_submatrix_spec (m : Matrix) (rs re cs ce : Nat) (hm : m.WF)
    (hre : re < 2 ^ 64) (hce : ce < 2 ^ 64)
    (hrows : m.nrows < 2 ^ 64) (hcols : m.ncols < 2 ^ 64) :
    (m.extractMatrix (rs, re) (cs, ce) =
        .error (.outOfRange "Slice indices are out of bounds or invalid.") ↔
      m.nrows < re ∨ m.ncols < ce ∨ re ≤ rs ∨ ce ≤ cs) ∧
    (re ≤ m.nrows → ce ≤ m.ncols → rs < re → cs < ce →
      ∃ r, m.extractMatrix (rs, re) (cs, ce) = .ok r ∧
        r.nrows = re - rs ∧ r.ncols = ce - cs ∧
        ∀ i < re - rs, ∀ j < ce - cs, r.el i j = m.el (rs + i) (cs + j)) ∧
    Matrix.extractMatrix ⟨[[1, 2, 3], [4, 5, 6], [7, 8, 9]], 3, 3⟩ (0, 2) (1, 3) =
      .ok ⟨[[2, 3], [5, 6]], 2, 2⟩ := by
  obtain ⟨-, hr0, hc0, -⟩ := hm
  have hcond : (m.nrows ≤ rs ∨ m.nrows ≤ sub1w re ∨ sub1w re < rs ∨
      m.ncols ≤ cs ∨ m.ncols ≤ sub1w ce ∨ sub1w ce < cs) ↔
      (m.nrows < re ∨ m.ncols < ce ∨ re ≤ rs ∨ ce ≤ cs) := by
    rcases Nat.eq_zero_or_pos re with hz | hp
    · subst hz
      rw [sub1w_zero]
      omega
    · rw [sub1w_pos re hp hre]
      rcases Nat.eq_zero_or_pos ce with hz2 | hp2
      · subst hz2
        rw [sub1w_zero]
        omega
      · rw [sub1w_pos ce hp2 hce]
        omega
  refine ⟨?_, ?_, by decide⟩
  · unfold Matrix.extractMatrix
    dsimp only
    by_cases h : m.nrows ≤ rs ∨ m.nrows ≤ sub1w re ∨ sub1w re < rs ∨
        m.ncols ≤ cs ∨ m.ncols ≤ sub1w ce ∨ sub1w ce < cs
    · rw [if_pos h]
      simpa using hcond.mp h
    · rw [if_neg h]
      rw [← hcond]
      push_neg at h
      constructor
      · intro hcontra
        have hmk := internalMk_gridOfFn (sub1w re - rs + 1) (sub1w ce - cs + 1)
          (fun i j => m.el (rs + i) (cs + j)) (by omega) (by omega)
        rw [hmk] at hcontra
        exact absurd hcontra (by simp)
      · intro hcontra
        omega
  · intro h1 h2 h3 h4
    unfold Matrix.extractMatrix
    dsimp only
    have hre1 : sub1w re = re - 1 := sub1w_pos re (by omega) hre
    have hce1 : sub1w ce = ce - 1 := sub1w_pos ce (by omega) hce
    rw [hre1, hce1]
    rw [if_neg (by omega)]
    rw [internalMk_gridOfFn _ _ _ (by omega) (by omega)]
    refine ⟨_, rfl, by dsimp only; omega, by dsimp only; omega, ?_⟩
    intro i hi j hj
    rw [el_mk_grid _ _ _ i j (by omega) (by omega)]

/-- C3 witness: the hypotheses discharged at the spec's 3×3 example, with a
failing slice and the successful slice. -/
theorem c3_extract_submatrix_spec_witness :
    (Matrix.extractMatrix ⟨[[1, 2, 3], [4, 5, 6], [7, 8, 9]], 3, 3⟩ (1, 1) (0, 2) =
      .error (.outOfRange "Slice indices are out of bounds or invalid.")) ∧
    (∃ r, Matrix.extractMatrix ⟨[[1, 2, 3], [4, 5, 6], [7, 8, 9]], 3, 3⟩ (0, 2) (1, 3) =
      .ok r ∧ r.nrows = 2 ∧ r.ncols = 2) := by
  constructor
  · exact (c3_extract_submatrix_spec ⟨[[1, 2, 3], [4, 5, 6], [7, 8, 9]], 3, 3⟩ 1 1 0 2
      (by decide) (by norm_num) (by norm_num) (by norm_num) (by norm_num)).1.mpr
      (by norm_num)
  · obtain ⟨r, hr, h1, h2, -⟩ := (c3_extract_submatrix_spec
      ⟨[[1, 2, 3], [4, 5, 6], [7, 8, 9]], 3, 3⟩ 0 2 1 3
      (by decide) (by norm_num) (by norm_num) (by norm_num) (by norm_num)).2.1
      (by norm_num) (by norm_num) (by norm_num) (by norm_num)
    exact ⟨r, hr, h1, h2⟩

/-- C4 witness: the two `insertRow` failures at concrete inputs, and a
successful insertion. -/
theorem c4_insert_error_kinds_witness :
    ((Matrix.mk [[1, 2], [3, 4]] 2 2).insertRow [5] 0 =
      .error (.invalidArgument
        "Ill formed row. Should be of same size as the rest of the matrix")) ∧
    ((Matrix.mk [[1, 2], [3, 4]] 2 2).insertRow [5, 6] 3 =
      .error (.invalidArgument "Row index out of range")) ∧
    (∃ r, (Matrix.mk [[1, 2], [3, 4]] 2 2).insertRow [5, 6] 1 = .ok r ∧
      r.nrows = 3 ∧ r.ncols = 2) := by
  refine ⟨?_, ?_, ?_⟩
  · exact (c4_insert_error_kinds (Matrix.mk [[1, 2], [3, 4]] 2 2) [5] [] 0).1.mpr
      (by decide)
  · exact (c4_insert_error_kinds (Matrix.mk [[1, 2], [3, 4]] 2 2) [5, 6] [] 3).2.1.mpr
      (by decide)
  · exact (c4_insert_error_kinds (Matrix.mk [[1, 2], [3, 4]] 2 2) [5, 6] [] 1).2.2.2.1
      (by decide) (by decide)

/-! ### Claim C5: matrix multiplication -/

/-- C5: for well-formed operands, `multiply` fails (with the
dimension-mismatch `std::invalid_argument`) if and only if
`this.cols ≠ other.rows`; otherwise it returns the `(this.rows, other.cols)`
matrix whose `(i, j)` entry is `∑ k, this[i][k] * other[k][j]`; in
particular `[[1,2],[3,4]] * [[2,0],[1,2]] = [[4,4],[10,8]]`. -/
theorem c5_multiply_spec (m o : Matrix) (hm : m.WF) (ho : o.WF) :
    ((∃ e, m.mul o = .error e) ↔ m.ncols ≠ o.nrows) ∧
    (m.ncols ≠ o.nrows →
      m.mul o = .error (.invalidArgument (mulMismatchMsg m o))) ∧
    (m.ncols = o.nrows →
      ∃ r, m.mul o = .ok r ∧ r.nrows = m.nrows ∧ r.ncols = o.ncols ∧
        ∀ i < m.nrows, ∀ j < o.ncols,
          r.el i j = ∑ k ∈ Finset.range m.ncols, m.el i k * o.el k j) ∧
    Matrix.mul ⟨[[1, 2], [3, 4]], 2, 2⟩ ⟨[[2, 0], [1, 2]], 2, 2⟩ =
      .ok ⟨[[4, 4], [10, 8]], 2, 2⟩ := by
  obtain ⟨-, hmr, hmc, -⟩ := hm
  obtain ⟨-, hor, hoc, -⟩ := ho
  have hok : m.ncols = o.nrows →
      m.mul o = .ok (Matrix.mk (gridOfFn m.nrows o.ncols fun i j =>
        ∑ k ∈ Finset.range m.ncols, m.el i k * o.el k j) m.nrows o.ncols) := by
    intro h
    unfold Matrix.mul
    rw [if_neg (by omega)]
    exact internalMk_gridOfFn _ _ _ hmr hoc
  refine ⟨?_, ?_, ?_, ?_⟩
  · constructor
    · rintro ⟨e, he⟩ hcontra
      rw [hok hcontra] at he
      exact absurd he (by simp)
    · intro h
      exact ⟨_, by unfold Matrix.mul; rw [if_pos h]⟩
  · intro h
    unfold Matrix.mul
    rw [if_pos h]
  · intro h
    refine ⟨_, hok h, rfl, rfl, ?_⟩
    intro i hi j hj
    rw [el_mk_grid _ _ _ i j hi hj]
  · unfold Matrix.mul Matrix.internalMk gridOfFn
    norm_num [Matrix.el, Finset.sum_range_succ, List.range_succ]

/-- C5 witness: both sides at concrete matrices, including the spec's
product example. -/
theorem c5_multiply_spec_witness :
    (∃ e, Matrix.mul ⟨[[1, 2], [3, 4]], 2, 2⟩ ⟨[[1, 2, 3]], 1, 3⟩ = .error e) ∧
    Matrix.mul ⟨[[1, 2], [3, 4]], 2, 2⟩ ⟨[[2, 0], [1, 2]], 2, 2⟩ =
      .ok ⟨[[4, 4], [10, 8]], 2, 2⟩ := by
  constructor
  · exact (c5_multiply_spec ⟨[[1, 2], [3, 4]], 2, 2⟩ ⟨[[1, 2, 3]], 1, 3⟩
      (by decide) (by decide)).1.mpr (by decide)
  · exact (c5_multiply_spec ⟨[[1, 2], [3, 4]], 2, 2⟩ ⟨[[2, 0], [1, 2]], 2, 2⟩
      (by decide) (by decide)).2.2.2

/-! ### Claim C6: element-wise power -/

/-- Exhaustive behaviour of one row of the `operator^` loop: it fails with
the division-by-zero error exactly when the exponent is non-positive and the
row holds a zero, and otherwise maps `pow` over the row. -/
theorem powRow_cases (powFn : ℚ → ℚ → ℚ) (s : ℚ) (row : List ℚ) :
    (powRow powFn s row =
        .error (.runtimeError "Division by zero occured. (0 ^ ( <=0 ))") ∧
      s ≤ 0 ∧ (0 : ℚ) ∈ row) ∨
    (powRow powFn s row = .ok (row.map fun x => powFn x s) ∧
      ¬(s ≤ 0 ∧ (0 : ℚ) ∈ row)) := by
  induction row with
  | nil => right; simp [powRow]
  | cons x xs ih =>
    by_cases hx : x = 0 ∧ s ≤ 0
    · left
      refine ⟨?_, hx.2, by simp [hx.1]⟩
      unfold powRow
      rw [if_pos hx]
    · rcases ih with ⟨herr, hs, hmem⟩ | ⟨hok, hn⟩
      · left
        refine ⟨?_, hs, by simp [hmem]⟩
        unfold powRow
        rw [if_neg hx, herr]
      · right
        constructor
        · unfold powRow
          rw [if_neg hx, hok]
          simp
        · rintro ⟨hs, hmem⟩
          rcases List.mem_cons.mp hmem with h0 | h0
          · exact hx ⟨h0.symm, hs⟩
          · exact hn ⟨hs, h0⟩

/-- Exhaustive behaviour of the whole `operator^` loop over the grid. -/
theorem powGrid_cases (powFn : ℚ → ℚ → ℚ) (s : ℚ) (g : List (List ℚ)) :
    (powGrid powFn s g =
        .error (.runtimeError "Division by zero occured. (0 ^ ( <=0 ))") ∧
      s ≤ 0 ∧ ∃ row ∈ g, (0 : ℚ) ∈ row) ∨
    (powGrid powFn s g = .ok (g.map (List.map fun x => powFn x s)) ∧
      ¬(s ≤ 0 ∧ ∃ row ∈ g, (0 : ℚ) ∈ row)) := by
  induction g with
  | nil => right; simp [powGrid]
  | cons r rs ih =>
    rcases powRow_cases powFn s r with ⟨herr, hs, hmem⟩ | ⟨hok, hn⟩
    · left
      refine ⟨?_, hs, r, by simp, hmem⟩
      unfold powGrid
      rw [herr]
    · rcases ih with ⟨gerr, gs, grow, gmem, g0⟩ | ⟨gok, gn⟩
      · left
        refine ⟨?_, gs, grow, by simp [gmem], g0⟩
        unfold powGrid
        rw [hok, gerr]
      · right
        constructor
        · unfold powGrid
          rw [hok, gok]
          simp
        · rintro ⟨hs, row, hrow, h0⟩
          rcases List.mem_cons.mp hrow with hr | hr
          · exact hn ⟨hs, hr ▸ h0⟩
          · exact gn ⟨hs, row, hr, h0⟩

/-- C6: `power(1)` returns the matrix unchanged (fast path, no scan);
otherwise `power(s)` raises the division-by-zero `std::runtime_error` if and
only if the exponent is non-positive and some element is zero, and in the
non-failing case returns the element-wise `pow` image; the receiver is a
value and is never modified. -/
theorem c6_power_spec (powFn : ℚ → ℚ → ℚ) (m : Matrix) (s : ℚ) :
    m.hpowM powFn 1 = .ok m ∧
    (m.hpowM powFn s =
        .error (.runtimeError "Division by zero occured. (0 ^ ( <=0 ))") ↔
      s ≤ 0 ∧ ∃ row ∈ m.container, (0 : ℚ) ∈ row) ∧
    (s ≠ 1 → ¬(s ≤ 0 ∧ ∃ row ∈ m.container, (0 : ℚ) ∈ row) →
      m.hpowM powFn s =
        .ok ⟨m.container.map (List.map fun x => powFn x s), m.nrows, m.ncols⟩) := by
  refine ⟨by unfold Matrix.hpowM; rw [if_pos rfl], ?_, ?_⟩
  · by_cases h1 : s = 1
    · subst h1
      unfold Matrix.hpowM
      rw [if_pos rfl]
      constructor
      · intro h
        exact absurd h (by simp)
      · rintro ⟨hs, -⟩
        exact absurd hs (by norm_num)
    · unfold Matrix.hpowM
      rw [if_neg h1]
      rcases powGrid_cases powFn s m.container with ⟨herr, hs, hmem⟩ | ⟨hok, hn⟩
      · rw [herr]
        simpa using ⟨hs, hmem⟩
      · rw [hok]
        simpa using hn
  · intro h1 hn
    unfold Matrix.hpowM
    rw [if_neg h1]
    rcases powGrid_cases powFn s m.container with ⟨-, hs, hmem⟩ | ⟨hok, -⟩
    · exact absurd ⟨hs, hmem⟩ hn
    · rw [hok]

/-- C6 witness: the fast path, a failing power and a succeeding power at
concrete inputs. -/
theorem c6_power_spec_witness :
    (Matrix.hpowM ⟨[[0, 1], [2, 3]], 2, 2⟩ (fun a _ => a) 1 =
      .ok ⟨[[0, 1], [2, 3]], 2, 2⟩) ∧
    (Matrix.hpowM ⟨[[0, 1], [2, 3]], 2, 2⟩ (fun a _ => a) (-1) =
      .error (.runtimeError "Division by zero occured. (0 ^ ( <=0 ))")) ∧
    (Matrix.hpowM ⟨[[1, 2]], 1, 2⟩ (fun a _ => a) 2 =
      .ok ⟨[[1, 2]].map (List.map fun x => (fun a _ => a) x 2), 1, 2⟩) := by
  refine ⟨?_, ?_, ?_⟩
  · exact (c6_power_spec (fun a _ => a) ⟨[[0, 1], [2, 3]], 2, 2⟩ 1).1
  · exact (c6_power_spec (fun a _ => a) ⟨[[0, 1], [2, 3]], 2, 2⟩ (-1)).2.1.mpr
      ⟨by norm_num, [0, 1], by simp, by norm_num⟩
  · exact (c6_power_spec (fun a _ => a) ⟨[[1, 2]], 1, 2⟩ 2).2.2 (by norm_num)
      (by rintro ⟨hs, -⟩; exact absurd hs (by norm_num))

/-! ### Claim C9: seeded row shuffling -/

/-- Setting an index to the value already stored there leaves the list
unchanged. -/
theorem set_self_eq {α : Type} (l : List α) (i : Nat) (d : α) (h : i < l.length) :
    l.set i (l.getD i d) = l := by
  apply List.ext_getElem?
  intro n
  by_cases hn : n = i
  · subst hn
    rw [List.getElem?_set_self (by omega)]
    simp [List.getD_eq_getElem?_getD, List.getElem?_eq_getElem h]
  · rw [List.getElem?_set_ne (fun hh => hn hh.symm)]

/-- Pulling the `k`-th element of a list to the front while writing `x` into
its place is a permutation of pushing `x` to the front. -/
theorem cons_set_perm {α : Type} :
    ∀ (xs : List α) (k : Nat) (x : α), k < xs.length →
      (xs.getD k x :: xs.set k x).Perm (x :: xs)
  | y :: ys, 0, x, _ => by
    simpa using List.Perm.swap x y ys
  | y :: ys, k + 1, x, h => by
    have hk : k < ys.length := by simpa using h
    have step1 : (((y :: ys).getD (k + 1) x) :: (y :: ys).set (k + 1) x).Perm
        (y :: (ys.getD k x :: ys.set k x)) := by
      simpa using List.Perm.swap y (ys.getD k x) (ys.set k x)
    have step2 : (y :: (ys.getD k x :: ys.set k x)).Perm (y :: (x :: ys)) :=
      (cons_set_perm ys k x hk).cons y
    have step3 : (y :: (x :: ys)).Perm (x :: y :: ys) := List.Perm.swap x y ys
    exact (step1.trans step2).trans step3

/-- The two-position exchange of `listSwap` here with `i < j`. -/
theorem listSwap_perm_lt {α : Type} :
    ∀ (l : List α) (i j : Nat) (a b : α), i < j → l.get? i = some a →
      l.get? j = some b → ((l.set i b).set j a).Perm l
  | [], _, _, _, _, _, ha, _ => by simp at ha
  | _ :: _, _, 0, _, _, hij, _, _ => by omega
  | x :: xs, 0, j + 1, a, b, _, ha, hb => by
    have hax : x = a := by simpa using ha
    have hj : xs.get? j = some b := by simpa using hb
    have hjl : j < xs.length := (List.get?_eq_some.mp hj).1
    have hbd : xs.getD j a = b := by
      rw [List.getD_eq_getElem?_getD, ← List.get?_eq_getElem?, hj]
      rfl
    have heq : ((x :: xs).set 0 b).set (j + 1) a = b :: xs.set j a := by simp
    rw [heq, ← hbd, hax]
    exact cons_set_perm xs j a hjl
  | x :: xs, i + 1, j + 1, a, b, hij, ha, hb => by
    have hi : xs.get? i = some a := by simpa using ha
    have hj : xs.get? j = some b := by simpa using hb
    have heq : ((x :: xs).set (i + 1) b).set (j + 1) a = x :: (xs.set i b).set j a := by
      simp
    rw [heq]
    exact (listSwap_perm_lt xs i j a b (by omega) hi hj).cons x

/-- `listSwap` always returns a permutation of its input. -/
theorem listSwap_perm {α : Type} (l : List α) (i j : Nat) :
    (listSwap l i j).Perm l := by
  unfold listSwap
  cases hgi : l.get? i with
  | none => exact List.Perm.refl l
  | some a =>
    cases hgj : l.get? j with
    | none => exact List.Perm.refl l
    | some b =>
      dsimp only
      rcases Nat.lt_trichotomy i j with hlt | heq | hgt
      · exact listSwap_perm_lt l i j a b hlt hgi hgj
      · subst heq
        have hab : a = b := by rw [hgi] at hgj; injection hgj
        subst hab
        rw [List.set_set]
        have hil : i < l.length := List.get?_eq_some.mp hgi |>.1
        have : l.getD i a = a := by
          rw [List.getD_eq_getElem?_getD, ← List.get?_eq_getElem?, hgi]
          rfl
        rw [← this, set_self_eq l i a hil]
      · have hcomm : (l.set i b).set j a = (l.set j a).set i b :=
          List.set_comm b a l (by omega)
        rw [hcomm]
        exact listSwap_perm_lt l j i b a hgt hgj hgi

/-- Every Fisher–Yates pass returns a permutation of its input. -/
theorem fisherYates_perm {α : Type} (g : Nat → Nat) :
    ∀ (n : Nat) (l : List α), (fisherYates g n l).Perm l
  | 0, l => List.Perm.refl l
  | i + 1, l =>
    (fisherYates_perm g i (listSwap l (i + 1) (g (i + 1) % (i + 2)))).trans
      (listSwap_perm l (i + 1) (g (i + 1) % (i + 2)))

/-- C9: the seeded `shuffleRows` is a pure function of the matrix and the
seeded generator, so identical seeds on identical inputs give identical row
orders; and the produced row list is a permutation of the original rows
(same row multiset, with each row's contents untouched). -/
theorem c9_seeded_shuffle_deterministic_and_permutes (g : Nat → Nat)
    (m m2 : Matrix) (hsame : m = m2) :
    m.shuffleRows g = m2.shuffleRows g ∧
    (m.shuffleRows g).container.Perm m.container ∧
    (m.shuffleRows g).nrows = m.nrows ∧ (m.shuffleRows g).ncols = m.ncols := by
  subst hsame
  exact ⟨rfl, fisherYates_perm g (m.container.length - 1) m.container, rfl, rfl⟩

/-- C9 witness: shuffling a 3×2 matrix with a concrete generator twice gives
the same result, which is a permutation of the rows. -/
theorem c9_seeded_shuffle_witness :
    (Matrix.shuffleRows ⟨[[1, 2], [3, 4], [5, 6]], 3, 2⟩ (fun k => k + 7) =
      Matrix.shuffleRows ⟨[[1, 2], [3, 4], [5, 6]], 3, 2⟩ (fun k => k + 7)) ∧
    (Matrix.shuffleRows ⟨[[1, 2], [3, 4], [5, 6]], 3, 2⟩
        (fun k => k + 7)).container.Perm [[1, 2], [3, 4], [5, 6]] := by
  have h := c9_seeded_shuffle_deterministic_and_permutes (fun k => k + 7)
    ⟨[[1, 2], [3, 4], [5, 6]], 3, 2⟩ ⟨[[1, 2], [3, 4], [5, 6]], 3, 2⟩ rfl
  exact ⟨h.1, h.2.1⟩

/-! ### Claim C8: the shape invariant -/

/-- A length-targeted traversal of `List.zipWith` results. -/
theorem zipWith_all_length {α : Type} (f : List ℚ → α → List ℚ) (n : Nat) :
    ∀ (l : List (List ℚ)) (c : List α),
      (∀ row ∈ l, ∀ v ∈ c, (f row v).length = n) →
      ∀ row ∈ List.zipWith f l c, row.length = n
  | [], _, _ => by simp
  | _ :: _, [], _ => by simp
  | x :: xs, y :: ys, h => by
    intro row hrow
    rcases List.mem_cons.mp hrow with hr | hr
    · exact hr ▸ h x (by simp) y (by simp)
    · exact zipWith_all_length f n xs ys
        (fun r hrl v hv => h r (by simp [hrl]) v (by simp [hv])) row hr

theorem wf_add (m o : Matrix) (hm : m.WF) (r : Matrix) (h : m.add o = .ok r) :
    r.WF := by
  unfold Matrix.add at h
  by_cases hc : m.nrows ≠ o.nrows ∨ m.ncols ≠ o.ncols
  · rw [if_pos hc] at h
    exact absurd h (by simp)
  · rw [if_neg hc] at h
    injection h with h
    subst h
    exact wf_mk_grid _ _ _ hm.2.1 hm.2.2.1

theorem wf_sub (m o : Matrix) (hm : m.WF) (r : Matrix) (h : m.sub o = .ok r) :
    r.WF := by
  unfold Matrix.sub at h
  by_cases hc : m.nrows ≠ o.nrows ∨ m.ncols ≠ o.ncols
  · rw [if_pos hc] at h
    exact absurd h (by simp)
  · rw [if_neg hc] at h
    injection h with h
    subst h
    exact wf_mk_grid _ _ _ hm.2.1 hm.2.2.1

theorem wf_mul (m o : Matrix) (hm : m.WF) (ho : o.WF) (r : Matrix)
    (h : m.mul o = .ok r) : r.WF := by
  unfold Matrix.mul at h
  by_cases hc : m.ncols ≠ o.nrows
  · rw [if_pos hc] at h
    exact absurd h (by simp)
  · rw [if_neg hc] at h
    rw [internalMk_gridOfFn _ _ _ hm.2.1 ho.2.2.1] at h
    injection h with h
    subst h
    exact wf_mk_grid _ _ _ hm.2.1 ho.2.2.1

theorem wf_transpose (m : Matrix) (hm : m.WF) (r : Matrix)
    (h : m.transposeM = .ok r) : r.WF := by
  unfold Matrix.transposeM at h
  rw [internalMk_gridOfFn _ _ _ hm.2.2.1 hm.2.1] at h
  injection h with h
  subst h
  exact wf_mk_grid _ _ _ hm.2.2.1 hm.2.1

theorem wf_inverse (m : Matrix) (hm : m.WF) (r : Matrix)
    (h : m.inverse = .ok r) : r.WF := by
  unfold Matrix.inverse at h
  by_cases hsq : m.nrows ≠ m.ncols
  · rw [if_pos hsq] at h
    exact absurd h (by simp)
  · rw [if_neg hsq] at h
    cases hgj : gjLoop m.nrows m.nrows m.toFn (identityFn m.nrows) 0 with
    | error e =>
      rw [hgj] at h
      exact absurd h (by simp)
    | ok p =>
      rw [hgj] at h
      obtain ⟨A, B⟩ := p
      simp only at h
      injection h with h
      subst h
      exact wf_mk_grid _ _ _ hm.2.1 hm.2.1

theorem wf_hpow (m : Matrix) (hm : m.WF) (powFn : ℚ → ℚ → ℚ) (s : ℚ)
    (r : Matrix) (h : m.hpowM powFn s = .ok r) : r.WF := by
  unfold Matrix.hpowM at h
  by_cases h1 : s = 1
  · rw [if_pos h1] at h
    injection h with h
    subst h
    exact hm
  · rw [if_neg h1] at h
    rcases powGrid_cases powFn s m.container with ⟨herr, -, -⟩ | ⟨hok, -⟩
    · rw [herr] at h
      exact absurd h (by simp)
    · rw [hok] at h
      injection h with h
      subst h
      obtain ⟨hlen, hr0, hc0, hrect⟩ := hm
      unfold Matrix.WF
      dsimp only
      refine ⟨by simpa using hlen, hr0, hc0, ?_⟩
      intro row hrow
      simp only [List.mem_map] at hrow
      obtain ⟨row0, hr0m, rfl⟩ := hrow
      simp [hrect row0 hr0m]

theorem wf_insertRow (m : Matrix) (hm : m.WF) (row : List ℚ) (idx : Nat)
    (r : Matrix) (h : m.insertRow row idx = .ok r) : r.WF := by
  unfold Matrix.insertRow at h
  by_cases h1 : m.ncols ≠ row.length
  · rw [if_pos h1] at h
    exact absurd h (by simp)
  · rw [if_neg h1] at h
    by_cases h2 : m.nrows < idx
    · rw [if_pos h2] at h
      exact absurd h (by simp)
    · rw [if_neg h2] at h
      injection h with h
      subst h
      push_neg at h1
      obtain ⟨hlen, hr0, hc0, hrect⟩ := hm
      unfold Matrix.WF
      dsimp only
      refine ⟨?_, by omega, hc0, ?_⟩
      · rw [List.length_insertIdx idx m.container (by omega)]
        omega
      · intro row2 hrow2
        rcases (List.mem_insertIdx (by omega)).mp hrow2 with hr | hr
        · rw [hr, ← h1]
        · exact hrect row2 hr

theorem wf_insertRowFill (m : Matrix) (hm : m.WF) (v : ℚ) (idx : Nat)
    (r : Matrix) (h : m.insertRowFill v idx = .ok r) : r.WF := by
  unfold Matrix.insertRowFill at h
  by_cases h2 : m.nrows < idx
  · rw [if_pos h2] at h
    exact absurd h (by simp)
  · rw [if_neg h2] at h
    injection h with h
    subst h
    obtain ⟨hlen, hr0, hc0, hrect⟩ := hm
    unfold Matrix.WF
    dsimp only
    refine ⟨?_, by omega, hc0, ?_⟩
    · rw [List.length_insertIdx idx m.container (by omega)]
      omega
    · intro row2 hrow2
      rcases (List.mem_insertIdx (by omega)).mp hrow2 with hr | hr
      · rw [hr]
        exact List.length_replicate _ _
      · exact hrect row2 hr

theorem wf_insertCol (m : Matrix) (hm : m.WF) (col : List ℚ) (idx : Nat)
    (r : Matrix) (h : m.insertCol col idx = .ok r) : r.WF := by
  unfold Matrix.insertCol at h
  by_cases h1 : m.nrows ≠ col.length
  · rw [if_pos h1] at h
    exact absurd h (by simp)
  · rw [if_neg h1] at h
    by_cases h2 : m.ncols < idx
    · rw [if_pos h2] at h
      exact absurd h (by simp)
    · rw [if_neg h2] at h
      injection h with h
      subst h
      push_neg at h1
      obtain ⟨hlen, hr0, hc0, hrect⟩ := hm
      unfold Matrix.WF
      dsimp only
      refine ⟨?_, hr0, by omega, ?_⟩
      · rw [List.length_zipWith]
        omega
      · refine zipWith_all_length _ _ m.container col ?_
        intro row2 hrow2 v hv
        rw [List.length_insertIdx idx row2 (by rw [hrect row2 hrow2]; omega)]
        rw [hrect row2 hrow2]

theorem wf_insertColFill (m : Matrix) (hm : m.WF) (v : ℚ) (idx : Nat)
    (r : Matrix) (h : m.insertColFill v idx = .ok r) : r.WF := by
  unfold Matrix.insertColFill at h
  by_cases h2 : m.ncols < idx
  · rw [if_pos h2] at h
    exact absurd h (by simp)
  · rw [if_neg h2] at h
    injection h with h
    subst h
    obtain ⟨hlen, hr0, hc0, hrect⟩ := hm
    unfold Matrix.WF
    dsimp only
    refine ⟨by simpa using hlen, hr0, by omega, ?_⟩
    intro row2 hrow2
    simp only [List.mem_map] at hrow2
    obtain ⟨row0, hr0m, rfl⟩ := hrow2
    rw [List.length_insertIdx idx row0 (by rw [hrect row0 hr0m]; omega)]
    rw [hrect row0 hr0m]

theorem wf_hStack (m o : Matrix) (hm : m.WF) (ho : o.WF) (r : Matrix)
    (h : m.hStack o = .ok r) : r.WF := by
  unfold Matrix.hStack at h
  by_cases hc : m.nrows ≠ o.nrows
  · rw [if_pos hc] at h
    exact absurd h (by simp)
  · rw [if_neg hc] at h
    injection h with h
    subst h
    push_neg at hc
    obtain ⟨hlen, hr0, hc0, hrect⟩ := hm
    obtain ⟨holen, hor0, hoc0, horect⟩ := ho
    unfold Matrix.WF
    dsimp only
    refine ⟨?_, hr0, by omega, ?_⟩
    · rw [List.length_zipWith]
      omega
    · refine zipWith_all_length _ _ m.container o.container ?_
      intro row2 hrow2 v hv
      rw [List.length_append, hrect row2 hrow2, horect v hv]

theorem wf_vStack (m o : Matrix) (hm : m.WF) (ho : o.WF) (r : Matrix)
    (h : m.vStack o = .ok r) : r.WF := by
  unfold Matrix.vStack at h
  by_cases hc : m.ncols ≠ o.ncols
  · rw [if_pos hc] at h
    exact absurd h (by simp)
  · rw [if_neg hc] at h
    injection h with h
    subst h
    push_neg at hc
    obtain ⟨hlen, hr0, hc0, hrect⟩ := hm
    obtain ⟨holen, hor0, hoc0, horect⟩ := ho
    unfold Matrix.WF
    dsimp only
    refine ⟨?_, by omega, hc0, ?_⟩
    · rw [List.length_append]
      omega
    · intro row2 hrow2
      rcases List.mem_append.mp hrow2 with hr | hr
      · exact hrect row2 hr
      · rw [horect row2 hr]
        omega

theorem wf_extractMatrix (m : Matrix) (rcs ccs : Nat × Nat) (r : Matrix)
    (h : m.extractMatrix rcs ccs = .ok r) : r.WF := by
  unfold Matrix.extractMatrix at h
  by_cases hc : m.nrows ≤ rcs.1 ∨ m.nrows ≤ sub1w rcs.2 ∨ sub1w rcs.2 < rcs.1 ∨
      m.ncols ≤ ccs.1 ∨ m.ncols ≤ sub1w ccs.2 ∨ sub1w ccs.2 < ccs.1
  · rw [if_pos hc] at h
    exact absurd h (by simp)
  · rw [if_neg hc] at h
    rw [internalMk_gridOfFn _ _ _ (Nat.succ_pos _) (Nat.succ_pos _)] at h
    injection h with h
    subst h
    exact wf_mk_grid _ _ _ (Nat.succ_pos _) (Nat.succ_pos _)

theorem wf_extractRow (m : Matrix) (hm : m.WF) (idx : Nat) (r : Matrix)
    (h : m.extractRow idx = .ok r) : r.WF := by
  unfold Matrix.extractRow at h
  by_cases hb : m.nrows ≤ idx
  · rw [if_pos hb] at h
    exact absurd h (by simp)
  · rw [if_neg hb] at h
    unfold Matrix.internalMk at h
    have hrl : (m.container.getD idx []).length = m.ncols :=
      wf_row_length m hm idx (by omega)
    have hg0 : ([m.container.getD idx []] : List (List ℚ)).getD 0 [] =
        m.container.getD idx [] := rfl
    rw [if_neg (by
      have := hm.2.2.1
      simp only [hg0, hrl, List.length_singleton]
      omega)] at h
    injection h with h
    subst h
    unfold Matrix.WF
    dsimp only
    refine ⟨rfl, by simp, ?_, ?_⟩
    · rw [hg0, hrl]
      exact hm.2.2.1
    · intro row2 hrow2
      simp only [List.mem_singleton] at hrow2
      subst hrow2
      rw [hg0]

theorem wf_extractCol (m : Matrix) (idx : Nat) (r : Matrix)
    (h : m.extractCol idx = .ok r) : r.WF := by
  unfold Matrix.extractCol at h
  by_cases hb : m.ncols ≤ idx
  · rw [if_pos hb] at h
    exact absurd h (by simp)
  · rw [if_neg hb] at h
    exact wf_extractMatrix m _ _ r h

theorem wf_shuffle (m : Matrix) (hm : m.WF) (g : Nat → Nat) :
    (m.shuffleRows g).WF := by
  obtain ⟨hlen, hr0, hc0, hrect⟩ := hm
  have hperm := fisherYates_perm (α := List ℚ) g (m.container.length - 1) m.container
  refine ⟨?_, hr0, hc0, ?_⟩
  · simpa [Matrix.shuffleRows] using hperm.length_eq.trans hlen
  · intro row hrow
    exact hrect row (hperm.mem_iff.mp hrow)

theorem wf_setAt (m : Matrix) (hm : m.WF) (i j : Nat) (v : ℚ) (r : Matrix)
    (h : m.setAt i j v = .ok r) : r.WF := by
  unfold Matrix.setAt at h
  by_cases hb : m.nrows ≤ i ∨ m.ncols ≤ j
  · rw [if_pos hb] at h
    exact absurd h (by simp)
  · rw [if_neg hb] at h
    injection h with h
    subst h
    push_neg at hb
    obtain ⟨hlen, hr0, hc0, hrect⟩ := hm
    unfold Matrix.WF
    dsimp only
    refine ⟨by simpa using hlen, hr0, hc0, ?_⟩
    intro row hrow
    rcases List.mem_or_eq_of_mem_set hrow with hr | hr
    · exact hrect row hr
    · subst hr
      rw [List.length_set]
      exact wf_row_length m ⟨hlen, hr0, hc0, hrect⟩ i hb.1

theorem wf_identity (n : Nat) (r : Matrix) (h : Matrix.identity n = .ok r) :
    r.WF := by
  unfold Matrix.identity at h
  rcases Nat.eq_zero_or_pos n with hz | hp
  · subst hz
    exact absurd h (by simp [Matrix.internalMk, gridOfFn])
  · rw [internalMk_gridOfFn _ _ _ hp hp] at h
    injection h with h
    subst h
    exact wf_mk_grid _ _ _ hp hp

theorem wf_constVal (a b : Nat) (v : ℚ) (r : Matrix)
    (h : Matrix.constValMatrix a b v = .ok r) : r.WF := by
  unfold Matrix.constValMatrix at h
  by_cases hz : a = 0 ∨ b = 0
  · rw [if_pos hz] at h
    exact absurd h (by simp)
  · rw [if_neg hz] at h
    push_neg at hz
    unfold Matrix.internalMk at h
    have hga : (List.replicate a (List.replicate b v)).getD 0 [] = List.replicate b v := by
      cases a with
      | zero => omega
      | succ k => simp [List.replicate_succ]
    rw [if_neg (by simp only [hga, List.length_replicate]; omega)] at h
    injection h with h
    subst h
    unfold Matrix.WF
    dsimp only
    refine ⟨rfl, ?_, ?_, ?_⟩
    · rw [List.length_replicate]
      omega
    · rw [hga, List.length_replicate]
      omega
    · intro row hrow
      rw [List.eq_of_mem_replicate hrow, hga]

theorem wf_ofContainer (c : List (List ℚ)) (r : Matrix)
    (h : Matrix.ofContainer c = .ok r) :
    0 < r.nrows ∧ r.container.length = r.nrows ∧
      (∀ row ∈ r.container, row.length = r.ncols) ∧
      (0 < (c.getD 0 []).length → r.WF) := by
  unfold Matrix.ofContainer at h
  by_cases hz : c.length = 0
  · rw [if_pos hz] at h
    exact absurd h (by simp)
  · rw [if_neg hz] at h
    simp only at h
    by_cases hall : c.all fun row => row.length = (c.getD 0 []).length
    · rw [if_pos hall] at h
      injection h with h
      subst h
      have hrect : ∀ row ∈ c, row.length = (c.getD 0 []).length := by
        intro row hrow
        have := List.all_eq_true.mp hall row hrow
        exact of_decide_eq_true this
      exact ⟨by simpa using Nat.pos_of_ne_zero hz, rfl, hrect,
        fun hc => ⟨rfl, by simpa using Nat.pos_of_ne_zero hz, hc, hrect⟩⟩
    · rw [if_neg hall] at h
      exact absurd h (by simp)

/-- C8 counterexample: the public validating constructor accepts `[[]]` and
yields a 1×0 matrix, so `cols > 0` does not hold from the moment
construction succeeds. -/
theorem c8_invariant_counterexample :
    Matrix.ofContainer [[]] = .ok ⟨[[]], 1, 0⟩ ∧
    ¬(Matrix.mk [[]] 1 0).WF := by
  exact ⟨by decide, by decide⟩

/-- C8 (amended): matrices built by the validating constructor always have
`rows > 0` and rectangular rows, and additionally satisfy `cols > 0`
whenever the first row is non-empty (the constructor does not reject
zero-length rows); the internal factories establish the full invariant; and
the full invariant (`rows > 0 ∧ cols > 0` with every row of length `cols`)
is preserved by every operation of the library. -/
theorem c8_invariant_amended (m o : Matrix) (hm : m.WF) (ho : o.WF) :
    (∀ c r, Matrix.ofContainer c = .ok r →
      0 < r.nrows ∧ r.container.length = r.nrows ∧
        (∀ row ∈ r.container, row.length = r.ncols) ∧
        (0 < (c.getD 0 []).length → r.WF)) ∧
    (∀ n r, Matrix.identity n = .ok r → r.WF) ∧
    (∀ a b v r, Matrix.constValMatrix a b v = .ok r → r.WF) ∧
    (∀ r, m.add o = .ok r → r.WF) ∧
    (∀ s, (m.addScalar s).WF) ∧
    (∀ r, m.sub o = .ok r → r.WF) ∧
    (∀ s, (m.subScalar s).WF) ∧
    (∀ s, (Matrix.scalarSub s m).WF) ∧
    (∀ r, m.mul o = .ok r → r.WF) ∧
    (∀ s, (m.mulScalar s).WF) ∧
    (∀ s r, m.divScalar s = .ok r → r.WF) ∧
    (∀ powFn s r, m.hpowM powFn s = .ok r → r.WF) ∧
    (∀ r, m.transposeM = .ok r → r.WF) ∧
    (∀ r, m.inverse = .ok r → r.WF) ∧
    (∀ row idx r, m.insertRow row idx = .ok r → r.WF) ∧
    (∀ v idx r, m.insertRowFill v idx = .ok r → r.WF) ∧
    (∀ col idx r, m.insertCol col idx = .ok r → r.WF) ∧
    (∀ v idx r, m.insertColFill v idx = .ok r → r.WF) ∧
    (∀ r, m.hStack o = .ok r → r.WF) ∧
    (∀ r, m.vStack o = .ok r → r.WF) ∧
    (∀ rcs ccs r, m.extractMatrix rcs ccs = .ok r → r.WF) ∧
    (∀ idx r, m.extractRow idx = .ok r → r.WF) ∧
    (∀ idx r, m.extractCol idx = .ok r → r.WF) ∧
    (∀ g, (m.shuffleRows g).WF) ∧
    (∀ i j v r, m.setAt i j v = .ok r → r.WF) := by
  refine ⟨fun c r => wf_ofContainer c r,
    fun n r => wf_identity n r,
    fun a b v r => wf_constVal a b v r,
    fun r => wf_add m o hm r,
    fun s => wf_mk_grid _ _ _ hm.2.1 hm.2.2.1,
    fun r => wf_sub m o hm r,
    fun s => wf_mk_grid _ _ _ hm.2.1 hm.2.2.1,
    fun s => wf_mk_grid _ _ _ hm.2.1 hm.2.2.1,
    fun r => wf_mul m o hm ho r,
    fun s => wf_mk_grid _ _ _ hm.2.1 hm.2.2.1,
    ?_,
    fun powFn s r => wf_hpow m hm powFn s r,
    fun r => wf_transpose m hm r,
    fun r => wf_inverse m hm r,
    fun row idx r => wf_insertRow m hm row idx r,
    fun v idx r => wf_insertRowFill m hm v idx r,
    fun col idx r => wf_insertCol m hm col idx r,
    fun v idx r => wf_insertColFill m hm v idx r,
    fun r => wf_hStack m o hm ho r,
    fun r => wf_vStack m o hm ho r,
    fun rcs ccs r => wf_extractMatrix m rcs ccs r,
    fun idx r => wf_extractRow m hm idx r,
    fun idx r => wf_extractCol m idx r,
    fun g => wf_shuffle m hm g,
    fun i j v r => wf_setAt m hm i j v r⟩
  intro s r h
  unfold Matrix.divScalar at h
  by_cases hz : s = 0
  · rw [if_pos hz] at h
    exact absurd h (by simp)
  · rw [if_neg hz] at h
    injection h with h
    subst h
    exact wf_mk_grid _ _ _ hm.2.1 hm.2.2.1

/-- C8 witness: the amended invariant applied at concrete matrices. -/
theorem c8_invariant_amended_witness :
    Matrix.WF ⟨[[1, 2], [3, 4]], 2, 2⟩ ∧
    ((Matrix.mk [[1, 2], [3, 4]] 2 2).addScalar 5).WF ∧
    ((Matrix.mk [[1, 2], [3, 4]] 2 2).shuffleRows fun k => k + 3).WF := by
  have h := c8_invariant_amended ⟨[[1, 2], [3, 4]], 2, 2⟩ ⟨[[1, 2], [3, 4]], 2, 2⟩
    (by decide) (by decide)
  exact ⟨by decide, h.2.2.2.2.1 5, h.2.2.2.2.2.2.2.2.2.2.2.2.2.2.2.2.2.2.2.2.2.2.2.1
    fun k => k + 3⟩

/-! ### Claim C2: determinants of singular-by-construction matrices -/

theorem qAbs_nonneg (x : ℚ) : 0 ≤ qAbs x := by
  unfold qAbs
  split_ifs with h
  · linarith
  · linarith

theorem qAbs_of_nonneg (x : ℚ) (h : 0 ≤ x) : qAbs x = x := by
  unfold qAbs
  rw [if_neg (not_lt.mpr h)]

theorem qAbs_eq_zero (x : ℚ) (h : qAbs x = 0) : x = 0 := by
  unfold qAbs at h
  split_ifs at h with hc
  · linarith
  · exact h

/-- The pivot scan keeps the invariant that the recorded magnitude is the
magnitude of the recorded row, and only moves the record into the scanned
range. -/
theorem detPivotAux_spec (LU : Nat → Nat → ℚ) (col : Nat) :
    ∀ (fuel k : Nat) (best : Nat × ℚ), best.2 = qAbs (LU best.1 col) →
      ((detPivotAux LU col k fuel best).2 =
        qAbs (LU (detPivotAux LU col k fuel best).1 col)) ∧
      ((detPivotAux LU col k fuel best).1 = best.1 ∨
        (k ≤ (detPivotAux LU col k fuel best).1 ∧
          (detPivotAux LU col k fuel best).1 < k + fuel))
  | 0, k, best, h => ⟨h, Or.inl rfl⟩
  | fuel + 1, k, best, h => by
    unfold detPivotAux
    by_cases hc : best.2 < qAbs (LU k col)
    · rw [if_pos hc]
      obtain ⟨h1, h2⟩ := detPivotAux_spec LU col fuel (k + 1)
        (k, qAbs (LU k col)) rfl
      refine ⟨h1, ?_⟩
      rcases h2 with h2 | h2
      · right
        rw [h2]
        exact ⟨le_refl k, by omega⟩
      · right
        omega
    · rw [if_neg hc]
      obtain ⟨h1, h2⟩ := detPivotAux_spec LU col fuel (k + 1) best h
      refine ⟨h1, ?_⟩
      rcases h2 with h2 | h2
      · exact Or.inl h2
      · right
        omega

/-- The selected pivot of column `i` lies in rows `[i, n)` and its recorded
magnitude is the magnitude of its entry. -/
theorem detFindPivot_spec (LU : Nat → Nat → ℚ) (n i : Nat) (hin : i < n) :
    (detFindPivot LU n i).2 = qAbs (LU (detFindPivot LU n i).1 i) ∧
    i ≤ (detFindPivot LU n i).1 ∧ (detFindPivot LU n i).1 < n := by
  unfold detFindPivot
  obtain ⟨h1, h2⟩ := detPivotAux_spec LU i (n - (i + 1)) (i + 1)
    (i, qAbs (LU i i)) rfl
  refine ⟨h1, ?_⟩
  rcases h2 with h2 | h2
  · rw [h2]
    exact ⟨le_refl i, hin⟩
  · constructor <;> omega

/-- Once some active row is entirely zero, the elimination loop of
`determinant()` short-circuits to exactly `0`. -/
theorem detLoop_zero_of_activeZero (n : Nat) :
    ∀ (fuel : Nat) (LU : Nat → Nat → ℚ) (swaps i : Nat), i + fuel = n →
      activeZero LU n i → detLoop n fuel LU swaps i = 0
  | 0, LU, swaps, i, hfuel, ⟨r, hir, hrn, hz⟩ => by omega
  | fuel + 1, LU, swaps, i, hfuel, ⟨r, hir, hrn, hzero⟩ => by
    have hin : i < n := by omega
    unfold detLoop
    rw [if_pos hin]
    dsimp only
    by_cases hpv : qAbs (detFindPivot LU n i).2 < EPS
    · rw [if_pos hpv]
    · rw [if_neg hpv]
      obtain ⟨hmag, hpl, hpu⟩ := detFindPivot_spec LU n i hin
      have hmag0 : 0 ≤ (detFindPivot LU n i).2 := hmag ▸ qAbs_nonneg _
      have hEPS : EPS ≤ (detFindPivot LU n i).2 := by
        rw [← qAbs_of_nonneg _ hmag0]
        exact not_lt.mp hpv
      have hpvne : LU (detFindPivot LU n i).1 i ≠ 0 := by
        intro hzero2
        rw [hzero2] at hmag
        have : (detFindPivot LU n i).2 = 0 := by
          rw [hmag]
          unfold qAbs
          simp
        rw [this] at hEPS
        exact absurd hEPS (by norm_num [EPS])
      have hpr : (detFindPivot LU n i).1 ≠ r := by
        intro hEq
        exact hpvne (hEq ▸ hzero i (le_refl i) hin)
      set pr := (detFindPivot LU n i).1 with hprdef
      set LU1 := if pr ≠ i then swapRows LU i pr else LU with hLU1
      set r2 := if r = i then pr else r with hr2
      have hr2range : i + 1 ≤ r2 ∧ r2 < n := by
        rw [hr2]
        split_ifs with hri
        · omega
        · omega
      have hLU1r2 : ∀ c, LU1 r2 c = LU r c := by
        intro c
        rw [hLU1, hr2]
        split_ifs with hpri hri hri
        · unfold swapRows
          rw [if_neg (fun hc => hpri (by omega)), if_pos rfl, hri]
        · unfold swapRows
          rw [if_neg hri, if_neg (fun hc => hpr (by omega))]
        · rw [not_not.mp hpri, hri]
        · rfl
      apply detLoop_zero_of_activeZero n fuel _ _ (i + 1) (by omega)
      refine ⟨r2, by omega, by omega, ?_⟩
      intro c hc1 hc2
      unfold detElim
      rw [if_pos ⟨by omega, by omega⟩]
      rw [if_neg (by omega), if_pos ⟨by omega, hc2⟩]
      rw [hLU1r2 c, hLU1r2 i]
      rw [hzero c (by omega) hc2, hzero i (le_refl i) hin]
      rw [zero_div, zero_mul, sub_zero]

/-- Once two distinct active rows agree on the active block, the elimination
loop of `determinant()` short-circuits to exactly `0`: the pivot step either
cancels one of the two rows outright or keeps them identical. -/
theorem detLoop_zero_of_identicalRows (n : Nat) :
    ∀ (fuel : Nat) (LU : Nat → Nat → ℚ) (swaps i : Nat), i + fuel = n →
      identicalRows LU n i → detLoop n fuel LU swaps i = 0
  | 0, LU, swaps, i, hfuel, ⟨a, b, hab, hia, han, hib, hbn, heq⟩ => by omega
  | fuel + 1, LU, swaps, i, hfuel, ⟨a, b, hab, hia, han, hib, hbn, heq⟩ => by
    have hin : i < n := by omega
    unfold detLoop
    rw [if_pos hin]
    dsimp only
    by_cases hpv : qAbs (detFindPivot LU n i).2 < EPS
    · rw [if_pos hpv]
    · rw [if_neg hpv]
      obtain ⟨hmag, hpl, hpu⟩ := detFindPivot_spec LU n i hin
      have hmag0 : 0 ≤ (detFindPivot LU n i).2 := hmag ▸ qAbs_nonneg _
      have hEPS : EPS ≤ (detFindPivot LU n i).2 := by
        rw [← qAbs_of_nonneg _ hmag0]
        exact not_lt.mp hpv
      have hpvne : LU (detFindPivot LU n i).1 i ≠ 0 := by
        intro hzero2
        rw [hzero2] at hmag
        have h0 : (detFindPivot LU n i).2 = 0 := by
          rw [hmag]
          unfold qAbs
          simp
        rw [h0] at hEPS
        exact absurd hEPS (by norm_num [EPS])
      set pr := (detFindPivot LU n i).1 with hprdef
      set LU1 := if pr ≠ i then swapRows LU i pr else LU with hLU1
      set img : Nat → Nat :=
        fun x => if pr = i then x else if x = i then pr else if x = pr then i else x
        with himg
      have himg_range : ∀ x, i ≤ x → x < n → i ≤ img x ∧ img x < n := by
        intro x hx1 hx2
        rw [himg]
        dsimp only
        split_ifs <;> omega
      have himg_inj : ∀ x y, img x = img y → x = y := by
        intro x y hxy
        rw [himg] at hxy
        dsimp only at hxy
        split_ifs at hxy <;> omega
      have hLU1_img : ∀ x c, LU1 (img x) c = LU x c := by
        intro x c
        rw [hLU1, himg]
        dsimp only
        by_cases hpi : pr = i
        · rw [if_neg (not_not_intro hpi), if_pos hpi]
        · have hpi2 : pr ≠ i := hpi
          rw [if_pos hpi2, if_neg hpi]
          by_cases hxi : x = i
          · rw [if_pos hxi]
            unfold swapRows
            rw [if_neg hpi, if_pos rfl, hxi]
          · rw [if_neg hxi]
            by_cases hxpr : x = pr
            · rw [if_pos hxpr]
              unfold swapRows
              rw [if_pos rfl, hxpr]
            · rw [if_neg hxpr]
              unfold swapRows
              rw [if_neg hxi, if_neg hxpr]
      have hLU1ii : LU1 i i = LU pr i := by
        rw [hLU1]
        by_cases hpi : pr ≠ i
        · rw [if_pos hpi]
          unfold swapRows
          rw [if_pos rfl]
        · rw [if_neg hpi, not_not.mp hpi]
      have hLU1iine : LU1 i i ≠ 0 := by
        rw [hLU1ii]
        exact hpvne
      set a2 := img a with ha2def
      set b2 := img b with hb2def
      obtain ⟨ha2l, ha2u⟩ := himg_range a hia han
      obtain ⟨hb2l, hb2u⟩ := himg_range b hib hbn
      have hab2 : a2 ≠ b2 := fun hc => hab (himg_inj a b hc)
      have heq2 : ∀ c, i ≤ c → c < n → LU1 a2 c = LU1 b2 c := by
        intro c h1 h2
        rw [ha2def, hb2def, hLU1_img, hLU1_img]
        exact heq c h1 h2
      by_cases hcase : a2 = i ∨ b2 = i
      · obtain ⟨t, htl, htu, hteq⟩ :
            ∃ t, i + 1 ≤ t ∧ t < n ∧ ∀ c, i ≤ c → c < n → LU1 t c = LU1 i c := by
          rcases hcase with hc | hc
          · refine ⟨b2, by omega, hb2u, ?_⟩
            intro c h1 h2
            rw [← hc]
            exact (heq2 c h1 h2).symm
          · refine ⟨a2, by omega, ha2u, ?_⟩
            intro c h1 h2
            rw [← hc]
            exact heq2 c h1 h2
        apply detLoop_zero_of_activeZero n fuel _ _ (i + 1) (by omega)
        refine ⟨t, by omega, htu, ?_⟩
        intro c hc1 hc2
        unfold detElim
        rw [if_pos ⟨by omega, htu⟩]
        rw [if_neg (by omega), if_pos ⟨by omega, hc2⟩]
        rw [hteq c (by omega) hc2, hteq i (le_refl i) hin]
        rw [div_self hLU1iine, one_mul, sub_self]
      · push_neg at hcase
        apply detLoop_zero_of_identicalRows n fuel _ _ (i + 1) (by omega)
        refine ⟨a2, b2, hab2, by omega, ha2u, by omega, hb2u, ?_⟩
        intro c hc1 hc2
        unfold detElim
        rw [if_pos ⟨show i < a2 by omega, ha2u⟩, if_neg (show ¬c = i by omega),
          if_pos ⟨show i < c by omega, hc2⟩, if_pos ⟨show i < b2 by omega, hb2u⟩,
          if_neg (show ¬c = i by omega), if_pos ⟨show i < c by omega, hc2⟩]
        rw [heq2 c (by omega) hc2, heq2 i (le_refl i) hin]

/-- C2: `determinant()` returns exactly `0.0` for every square matrix that
has an all-zero row or two identical rows — the elimination short-circuits
when the best remaining pivot magnitude falls below the tolerance. -/
theorem c2_determinant_exact_zero (m : Matrix) (hm : m.WF)
    (hsq : m.nrows = m.ncols)
    (hsing : (∃ r, r < m.nrows ∧ ∀ c, c < m.ncols → m.el r c = 0) ∨
      (∃ p q, p < m.nrows ∧ q < m.nrows ∧ p ≠ q ∧
        m.container.getD p [] = m.container.getD q [])) :
    m.determinant = .ok 0 := by
  unfold Matrix.determinant
  rw [if_neg (not_not_intro hsq)]
  have hn : m.container.length = m.nrows := hm.1
  congr 1
  rcases hsing with ⟨r, hr, hz⟩ | ⟨p, q, hp, hq, hpq, heqrows⟩
  · apply detLoop_zero_of_activeZero m.container.length m.container.length
      m.toFn 0 0 (by omega)
    exact ⟨r, by omega, by omega, fun c h1 h2 => hz c (by omega)⟩
  · apply detLoop_zero_of_identicalRows m.container.length m.container.length
      m.toFn 0 0 (by omega)
    refine ⟨p, q, hpq, by omega, by omega, by omega, by omega, ?_⟩
    intro c h1 h2
    unfold Matrix.toFn Matrix.el
    rw [heqrows]

/-- C2 witness: a matrix with two identical rows and a matrix with a zero
row, both with determinant exactly `0`. -/
theorem c2_determinant_exact_zero_witness :
    (Matrix.determinant ⟨[[1, 2], [1, 2]], 2, 2⟩ = .ok 0) ∧
    (Matrix.determinant ⟨[[1, 2, 3], [0, 0, 0], [4, 5, 6]], 3, 3⟩ = .ok 0) := by
  constructor
  · exact c2_determinant_exact_zero ⟨[[1, 2], [1, 2]], 2, 2⟩ (by decide) rfl
      (Or.inr ⟨0, 1, by decide, by decide, by decide, by decide⟩)
  · exact c2_determinant_exact_zero ⟨[[1, 2, 3], [0, 0, 0], [4, 5, 6]], 3, 3⟩
      (by decide) rfl
      (Or.inl ⟨1, by decide, by decide⟩)

/-! ### Claim C1: the Gauss–Jordan inverse is a right inverse -/

/-- The pivot scan of `inverse()` either keeps its starting record or moves
it into the scanned range. -/
theorem invPivotAux_range (A : Nat → Nat → ℚ) (col : Nat) :
    ∀ (fuel j pivot : Nat),
      invPivotAux A col j fuel pivot = pivot ∨
        (j ≤ invPivotAux A col j fuel pivot ∧
          invPivotAux A col j fuel pivot < j + fuel)
  | 0, j, pivot => Or.inl rfl
  | fuel + 1, j, pivot => by
    unfold invPivotAux
    by_cases hc : qAbs (A pivot col) < qAbs (A j col)
    · rw [if_pos hc]
      rcases invPivotAux_range A col fuel (j + 1) j with h | h
      · right
        rw [h]
        omega
      · right
        omega
    · rw [if_neg hc]
      rcases invPivotAux_range A col fuel (j + 1) pivot with h | h
      · exact Or.inl h
      · right
        omega

/-- The pivot row selected by `inverse()` for column `i` lies in `[i, n)`. -/
theorem invFindPivot_range (A : Nat → Nat → ℚ) (n i : Nat) (hin : i < n) :
    i ≤ invFindPivot A n i ∧ invFindPivot A n i < n := by
  unfold invFindPivot
  rcases invPivotAux_range A i (n - (i + 1)) (i + 1) i with h | h
  · rw [h]
    omega
  · omega

/-- Pointwise description of `swapRows` through the transposition of the two
row indices. -/
theorem swapRows_apply (X : Nat → Nat → ℚ) (i j r c : Nat) :
    swapRows X i j r c = X (if r = i then j else if r = j then i else r) c := by
  unfold swapRows
  split_ifs <;> rfl

/-- The two invariants of the Gauss–Jordan loop: the working matrix always
equals the accumulator times the original matrix, and the already-processed
columns of the working matrix are identity columns.  At a successful exit
the working matrix is the identity, so the accumulator is a left inverse of
the original matrix. -/
theorem gjLoop_invariant (n : Nat) (A0 : Nat → Nat → ℚ) :
    ∀ (fuel : Nat) (A B : Nat → Nat → ℚ) (i : Nat) (Af Bf : Nat → Nat → ℚ),
      i + fuel = n →
      (∀ r c, r < n → c < n →
        A r c = ∑ k ∈ Finset.range n, B r k * A0 k c) →
      (∀ c, c < i → ∀ r, r < n → A r c = if r = c then (1 : ℚ) else 0) →
      gjLoop n fuel A B i = .ok (Af, Bf) →
      ∀ r c, r < n → c < n →
        (if r = c then (1 : ℚ) else 0) = ∑ k ∈ Finset.range n, Bf r k * A0 k c
  | 0, A, B, i, Af, Bf, hfuel, hinv1, hinv2, hok => by
    unfold gjLoop at hok
    injection hok with hok
    injection hok with hok1 hok2
    intro r c hr hc
    rw [← hok2, ← hinv1 r c hr hc, hinv2 c (by omega) r hr]
  | fuel + 1, A, B, i, Af, Bf, hfuel, hinv1, hinv2, hok => by
    have hin : i < n := by omega
    unfold gjLoop at hok
    rw [if_pos hin] at hok
    dsimp only at hok
    by_cases hpv : qAbs (A (invFindPivot A n i) i) < EPS
    · rw [if_pos hpv] at hok
      exact absurd hok (by simp)
    · rw [if_neg hpv] at hok
      obtain ⟨hpl, hpu⟩ := invFindPivot_range A n i hin
      set pv := invFindPivot A n i with hpvdef
      have hpne : A pv i ≠ 0 := by
        intro h0
        rw [h0] at hpv
        exact hpv (by unfold qAbs; rw [if_neg (by norm_num)]; norm_num [EPS])
      set σ : Nat → Nat := fun r => if r = i then pv else if r = pv then i else r
        with hσ
      have hσ_lt : ∀ r, r < n → σ r < n := by
        intro r hr
        rw [hσ]
        dsimp only
        split_ifs <;> omega
      set A1 := swapRows A i pv with hA1
      set B1 := swapRows B i pv with hB1
      have hA1app : ∀ r c, A1 r c = A (σ r) c := fun r c => swapRows_apply A i pv r c
      have hB1app : ∀ r c, B1 r c = B (σ r) c := fun r c => swapRows_apply B i pv r c
      have hA1ii : A1 i i = A pv i := by
        rw [hA1app]
        rw [hσ]
        dsimp only
        rw [if_pos rfl]
      set p := A1 i i with hp
      have hpne2 : p ≠ 0 := by
        rw [hA1ii]
        exact hpne
      -- invariants after the swap
      have hinv1s : ∀ r c, r < n → c < n →
          A1 r c = ∑ k ∈ Finset.range n, B1 r k * A0 k c := by
        intro r c hr hc
        rw [hA1app]
        rw [hinv1 (σ r) c (hσ_lt r hr) hc]
        refine Finset.sum_congr rfl ?_
        intro k hk
        rw [hB1app]
      have hinv2s : ∀ c, c < i → ∀ r, r < n →
          A1 r c = if r = c then (1 : ℚ) else 0 := by
        intro c hcil r hr
        rw [hA1app, hinv2 c hcil (σ r) (hσ_lt r hr)]
        rw [hσ]
        dsimp only
        split_ifs <;> first | rfl | omega
      -- invariants after the normalization
      set A2 := gjNormalize A1 n i p with hA2
      set B2 := gjNormalize B1 n i p with hB2
      have hinv1n : ∀ r c, r < n → c < n →
          A2 r c = ∑ k ∈ Finset.range n, B2 r k * A0 k c := by
        intro r c hr hc
        rw [hA2, hB2]
        unfold gjNormalize
        by_cases hri : r = i
        · rw [if_pos ⟨hri, hc⟩]
          rw [hinv1s r c hr hc]
          rw [Finset.sum_div]
          refine Finset.sum_congr rfl ?_
          intro k hk
          rw [if_pos ⟨hri, Finset.mem_range.mp hk⟩]
          ring
        · rw [if_neg (by tauto)]
          rw [hinv1s r c hr hc]
          refine Finset.sum_congr rfl ?_
          intro k hk
          rw [if_neg (by tauto)]
      have hinv2n : ∀ c, c < i → ∀ r, r < n →
          A2 r c = if r = c then (1 : ℚ) else 0 := by
        intro c hci r hr
        rw [hA2]
        unfold gjNormalize
        by_cases hri : r = i
        · rw [if_pos ⟨hri, by omega⟩]
          rw [hinv2s c hci r hr]
          rw [if_neg (show ¬r = c by omega), zero_div]
        · rw [if_neg (by tauto)]
          exact hinv2s c hci r hr
      have hA2ii : A2 i i = 1 := by
        rw [hA2]
        unfold gjNormalize
        rw [if_pos ⟨rfl, hin⟩]
        exact div_self hpne2
      -- invariants after the elimination
      set A3 := gjEliminate A2 A2 n i with hA3
      set B3 := gjEliminate A2 B2 n i with hB3
      have hinv1e : ∀ r c, r < n → c < n →
          A3 r c = ∑ k ∈ Finset.range n, B3 r k * A0 k c := by
        intro r c hr hc
        rw [hA3, hB3]
        unfold gjEliminate
        by_cases hri : r = i
        · rw [if_neg (by tauto)]
          rw [hinv1n r c hr hc]
          refine Finset.sum_congr rfl fun k hk => ?_
          rw [if_neg (by tauto)]
        · rw [if_pos ⟨hri, hr, hc⟩]
          rw [hinv1n r c hr hc, hinv1n i c hin hc]
          rw [Finset.mul_sum, ← Finset.sum_sub_distrib]
          refine Finset.sum_congr rfl fun k hk => ?_
          rw [if_pos ⟨hri, hr, Finset.mem_range.mp hk⟩]
          ring
      have hinv2e : ∀ c, c < i + 1 → ∀ r, r < n →
          A3 r c = if r = c then (1 : ℚ) else 0 := by
        intro c hci r hr
        rw [hA3]
        unfold gjEliminate
        by_cases hri : r = i
        · rw [if_neg (by tauto)]
          by_cases hcio : c < i
          · exact hinv2n c hcio r hr
          · have hci2 : c = i := by omega
            rw [hri, hci2, hA2ii, if_pos rfl]
        · rw [if_pos ⟨hri, hr, by omega⟩]
          by_cases hcio : c < i
          · rw [hinv2n c hcio r hr, hinv2n c hcio i hin]
            rw [if_neg (show ¬i = c by omega), mul_zero, sub_zero]
          · have hci2 : c = i := by omega
            rw [hci2, hA2ii, mul_one, sub_self, if_neg (by omega)]
      exact gjLoop_invariant n A0 fuel A3 B3 (i + 1) Af Bf (by omega)
        hinv1e hinv2e hok

end MatOps

/-- For square matrices over `ℚ` a left inverse is also a right inverse,
stated in the range-sum form produced by the Gauss–Jordan invariant. -/
theorem rangeSum_left_inv_right_inv (n : Nat) (A B : Nat → Nat → ℚ)
    (h : ∀ r c, r < n → c < n →
      (if r = c then (1 : ℚ) else 0) = ∑ k ∈ Finset.range n, B r k * A k c) :
    ∀ r c, r < n → c < n →
      (if r = c then (1 : ℚ) else 0) = ∑ k ∈ Finset.range n, A r k * B k c := by
  classical
  set M : Matrix (Fin n) (Fin n) ℚ := Matrix.of fun x y : Fin n => B x y with hM
  set N : Matrix (Fin n) (Fin n) ℚ := Matrix.of fun x y : Fin n => A x y with hN
  have hMN : M * N = 1 := by
    ext x y
    rw [Matrix.mul_apply, Matrix.one_apply]
    have hsum := h x y x.isLt y.isLt
    have hfin : ∑ j : Fin n, B x j * A j y =
        ∑ k ∈ Finset.range n, B x k * A k y :=
      Fin.sum_univ_eq_sum_range (fun k => B x k * A k y) n
    rw [hM, hN]
    simp only [Matrix.of_apply]
    rw [hfin, ← hsum]
    by_cases hxy : x = y
    · rw [if_pos hxy, if_pos (by rw [hxy])]
    · rw [if_neg hxy, if_neg (fun hc => hxy (Fin.ext hc))]
  have hNM : N * M = 1 := Matrix.mul_eq_one_comm.mp hMN
  intro r c hr hc
  have happ := congrFun (congrFun hNM ⟨r, hr⟩) ⟨c, hc⟩
  rw [Matrix.mul_apply, Matrix.one_apply] at happ
  have hfin : ∑ j : Fin n, N ⟨r, hr⟩ j * M j ⟨c, hc⟩ =
      ∑ k ∈ Finset.range n, A r k * B k c := by
    rw [hN, hM]
    exact Fin.sum_univ_eq_sum_range (fun k => A r k * B k c) n
  rw [hfin] at happ
  rw [happ]
  by_cases hrc : r = c
  · rw [if_pos hrc, if_pos (Fin.ext hrc)]
  · rw [if_neg hrc, if_neg (fun hc2 => hrc (by injection hc2))]

namespace MatOps

/-- C1: whenever `inverse()` succeeds on a well-formed square matrix, the
product `A.multiply(A.inverse())` succeeds and is approximately equal
(under `operator==`, tolerance `EPS`) to `identity(n)`. -/
theorem c1_inverse_is_right_inverse (m B : Matrix) (hm : m.WF)
    (hinv : m.inverse = .ok B) :
    ∃ C Id, m.mul B = .ok C ∧ Matrix.identity m.nrows = .ok Id ∧
      C.matEq Id = true := by
  unfold Matrix.inverse at hinv
  by_cases hsq : m.nrows ≠ m.ncols
  · rw [if_pos hsq] at hinv
    exact absurd hinv (by simp)
  · rw [if_neg hsq] at hinv
    push_neg at hsq
    cases hgj : gjLoop m.nrows m.nrows m.toFn (identityFn m.nrows) 0 with
    | error e =>
      rw [hgj] at hinv
      exact absurd hinv (by simp)
    | ok pq =>
      rw [hgj] at hinv
      obtain ⟨Af, Bf⟩ := pq
      simp only at hinv
      injection hinv with hinv
      obtain ⟨hlen, hr0, hc0, hrect⟩ := hm
      set n := m.nrows with hn
      -- initial multiplicative invariant
      have hinit : ∀ r c, r < n → c < n →
          m.toFn r c = ∑ k ∈ Finset.range n, identityFn n r k * m.toFn k c := by
        intro r c hr hc
        have h0 : ∀ k ∈ Finset.range n, k ≠ r →
            identityFn n r k * m.toFn k c = 0 := by
          intro k hk hkr
          unfold identityFn
          rw [if_neg (fun hand => hkr hand.2.2.symm), zero_mul]
        have h1 : r ∉ Finset.range n →
            identityFn n r r * m.toFn r c = 0 := by
          intro hnot
          exact absurd (Finset.mem_range.mpr hr) hnot
        rw [Finset.sum_eq_single r h0 h1]
        unfold identityFn
        rw [if_pos ⟨hr, hr, rfl⟩, one_mul]
      have hleft := gjLoop_invariant n m.toFn n m.toFn (identityFn n) 0 Af Bf
        (by omega) hinit (fun c hc => absurd hc (by omega)) hgj
      have hright := rangeSum_left_inv_right_inv n m.toFn Bf hleft
      -- the product succeeds
      have hBn : B.nrows = n := by rw [← hinv]
      have hBc : B.ncols = n := by rw [← hinv]
      have hmulok : m.mul B =
          .ok (Matrix.mk (gridOfFn m.nrows B.ncols fun i j =>
            ∑ k ∈ Finset.range m.ncols, m.el i k * B.el k j) m.nrows B.ncols) := by
        unfold Matrix.mul
        rw [if_neg (by omega)]
        exact internalMk_gridOfFn _ _ _ hr0 (by omega)
      have hidok : Matrix.identity n =
          .ok (Matrix.mk (gridOfFn n n fun r c => if r = c then (1 : ℚ) else 0)
            n n) := by
        unfold Matrix.identity
        exact internalMk_gridOfFn _ _ _ hr0 hr0
      refine ⟨_, _, hmulok, hidok, ?_⟩
      -- the product entries are exactly the identity entries
      have hCel : ∀ i j, i < n → j < n →
          (Matrix.mk (gridOfFn m.nrows B.ncols fun i j =>
            ∑ k ∈ Finset.range m.ncols, m.el i k * B.el k j)
              m.nrows B.ncols).el i j = if i = j then (1 : ℚ) else 0 := by
        intro i j hi hj
        rw [el_mk_grid _ _ _ i j (by omega) (by omega)]
        have hBel : ∀ k, k < n → B.el k j = Bf k j := by
          intro k hk
          rw [← hinv]
          exact el_mk_grid _ _ _ k j hk hj
        have hsum : ∑ k ∈ Finset.range m.ncols, m.el i k * B.el k j =
            ∑ k ∈ Finset.range n, m.toFn i k * Bf k j := by
          rw [show m.ncols = n by omega]
          refine Finset.sum_congr rfl fun k hk => ?_
          rw [hBel k (Finset.mem_range.mp hk)]
          rfl
        rw [hsum, ← hright i j hi hj]
      have hIel : ∀ i j, i < n → j < n →
          (Matrix.mk (gridOfFn n n fun r c => if r = c then (1 : ℚ) else 0)
            n n).el i j = if i = j then (1 : ℚ) else 0 := by
        intro i j hi hj
        exact el_mk_grid _ _ _ i j hi hj
      unfold Matrix.matEq
      rw [if_neg (by
        push_neg
        refine ⟨rfl, ?_⟩
        show B.ncols = n
        omega)]
      rw [List.all_eq_true]
      intro i hi
      rw [List.all_eq_true]
      intro j hj
      rw [List.mem_range] at hi hj
      dsimp only at hi hj
      rw [decide_eq_true_eq]
      rw [hCel i j (by omega) (by omega), hIel i j (by omega) (by omega)]
      rw [sub_self]
      rw [qAbs_of_nonneg 0 le_rfl]
      norm_num [EPS]

/-- Concrete Gauss–Jordan run: the inverse of the spec example
`[[4, 7], [2, 6]]` is `[[0.6, -0.7], [-0.2, 0.4]]`. -/
theorem inverse_of_spec_example :
    (Matrix.mk [[4, 7], [2, 6]] 2 2).inverse =
      .ok ⟨[[3 / 5, -7 / 10], [-1 / 5, 2 / 5]], 2, 2⟩ := by
  norm_num [Matrix.inverse, gjLoop, invFindPivot, invPivotAux, gjNormalize,
    gjEliminate, swapRows, identityFn, Matrix.toFn, Matrix.el, qAbs, EPS,
    gridOfFn, List.range_succ, Matrix.mk.injEq]

/-- C1 witness: at the spec's invertible 2×2 example, multiplying by the
computed inverse gives the identity under the tolerance comparison. -/
theorem c1_inverse_is_right_inverse_witness :
    ∃ C Id, (Matrix.mk [[4, 7], [2, 6]] 2 2).mul
        ⟨[[3 / 5, -7 / 10], [-1 / 5, 2 / 5]], 2, 2⟩ = .ok C ∧
      Matrix.identity 2 = .ok Id ∧ C.matEq Id = true :=
  c1_inverse_is_right_inverse (Matrix.mk [[4, 7], [2, 6]] 2 2)
    ⟨[[3 / 5, -7 / 10], [-1 / 5, 2 / 5]], 2, 2⟩ (by decide) inverse_of_spec_example

end MatOps
